import Mathlib

/-!
# NewtFile.c: path canonicalization and module resolution

A shallow embedding of `src/newt_core/NewtFile.c`. C strings are lists of characters; the
terminating NUL is what a read past the end of the list returns. Definitions come first,
theorems after them.
-/

namespace Newt

/-! ## The path canonicalizer -/

/-- File separator (`NewtGetFileSeparator`). -/
def NewtGetFileSeparator : Char := '/'

/-- The NUL character that terminates a C string. -/
def NUL : Char := Char.ofNat 0

/-- The character `src[k]` of a C string; past the end it is the terminator. -/
def peek (src : List Char) (k : Nat) : Char := src.getD k NUL

/-- The inner loop `while (s < dst) { dst--; if (*dst == sep) break; }` of
`NewtRelToAbsPath`. The written part of the buffer, `s[0 .. dst)`, is kept as a stack
with the last written character first; at `s = dst` the stack is empty and the loop
does nothing. -/
def rewind (sep : Char) : List Char → List Char
  | [] => []
  | c :: rest => if c = sep then rest else rewind sep rest

/-- The scanning loop `for (src = dst = s; *src != 0;)` of `NewtRelToAbsPath`. `src` is
the unread rest of the string, `dst` the written part as a stack (last character
first). Every iteration consumes at least one character, so fuel equal to the length
of `src` is enough (`scan_fuel`). -/
def scan (sep : Char) : Nat → List Char → List Char → List Char
  | 0, _, dst => dst
  | fuel + 1, src, dst =>
    if peek src 0 = NUL then dst
    else if peek src 0 = sep ∧ peek src 1 = '.' then
      if peek src 2 = sep ∨ peek src 2 = NUL then
        scan sep fuel (src.drop 2) dst
      else if peek src 2 = '.' ∧ peek src 3 = sep then
        scan sep fuel (src.drop 3) (rewind sep dst)
      else
        scan sep fuel (src.drop 1) (peek src 0 :: dst)
    else
      scan sep fuel (src.drop 1) (peek src 0 :: dst)

/-- The end of `NewtRelToAbsPath`: when the written part is not empty and its last
character is the separator, that character is overwritten by the terminator; otherwise
the terminator is put after the written part. The result is the string read back. -/
def terminate (sep : Char) : List Char → List Char
  | [] => []
  | c :: rest => if c = sep then rest.reverse else (c :: rest).reverse

/-- Canonicalization of a path in place (`NewtRelToAbsPath`); the result is the string
the buffer holds afterwards. -/
def NewtRelToAbsPath (s : List Char) : List Char :=
  let sep := NewtGetFileSeparator
  terminate sep (scan sep s.length s [])

/-- The scanning loop of `NewtRelToAbsPath` with the separator and the fuel filled in. -/
def run (src dst : List Char) : List Char := scan '/' src.length src dst

/-- A path component: not empty, without separator, dot or NUL. -/
abbrev IsComponent (a : List Char) : Prop :=
  a ≠ [] ∧ ∀ x ∈ a, x ≠ NewtGetFileSeparator ∧ x ≠ '.' ∧ x ≠ NUL

/-! ## Object references and collaborators of the module loader -/

/-- Object references (`newtRef`), as far as this file tells them apart. Symbols are
identified by their name. -/
inductive Ref
  | unbind
  | nil
  | symbol (name : List Char)
  | string (s : List Char)
  | integer (n : Int)
  | other (tag : Nat)
  deriving DecidableEq

/-- Error codes passed to `NewtThrow` in this file. -/
inductive ErrCode
  | kNErrNotASymbol
  | kNErrNotAString
  | kNErrDylibNotOpen
  | kNErrFileNotFound
  deriving DecidableEq

/-- The file types of `lib_exts` (the anonymous enum at the top of the file). -/
inductive FileType
  | typeScript
  | typeDylib
  deriving DecidableEq

/-- An entry of `lib_exts`: `file_ext_t`. -/
structure file_ext_t where
  ext : List Char
  type : FileType
  deriving DecidableEq

/-- A frame: slots in insertion order, at most one per symbol. -/
abbrev Frame := List (List Char × Ref)

/-- The calls a run makes to its collaborators, in order. -/
inductive Event
  | probe (path : List Char)
  | dlopen (path : List Char)
  | dlclose (lib : Nat)
  | install (lib : Nat)
  | stderr (msg : List Char)
  | compile (path : List Char)
  | call (fn : Ref)
  | throw (err : ErrCode) (value : Ref)
  deriving DecidableEq

/-- Everything outside this file that the loader consults: the filesystem, the dynamic
linker, the compiler and virtual machine, the configuration variables, the platform
suffix `__DYLIBSUFFIX__`, and the value `NewtThrow` hands back to its caller. -/
structure World where
  fileExists : List Char → Bool
  dlopenLib : List Char → Option Nat
  dlsymInstall : Nat → Bool
  dlerror : List Char → Option (List Char)
  compileFile : List Char → Ref
  vmCall : Ref → Ref
  dylibSuffix : List Char
  newtlib : Option (List (List Char))
  exedir : List Char
  throwRet : Ref

/-- The result of a call: the returned reference, the global variable `requires`
after the call (`none` while it is not a frame), and the collaborator calls made. -/
structure Outcome where
  ret : Ref
  requires : Option Frame
  trace : List Event
  deriving DecidableEq

/-- Modelled from the spec: `NewtHasSlot` is declared outside this file; the registry is a
mapping from module symbol to bound artifact, and this is its key test. -/
def NewtHasSlot (frame : Frame) (sym : List Char) : Bool :=
  frame.any (fun slot => slot.1 = sym)

/-- Modelled from the spec: `NcSetSlot` is declared outside this file; it binds the symbol
in the mapping, keeping keys unique (an existing slot is overwritten). -/
def NcSetSlot : Frame → List Char → Ref → Frame
  | [], sym, v => [(sym, v)]
  | slot :: rest, sym, v =>
    if slot.1 = sym then (sym, v) :: rest else slot :: NcSetSlot rest sym v

/-- The value bound to a symbol in a frame, if any. -/
def getSlot (frame : Frame) (sym : List Char) : Option Ref :=
  (frame.find? (fun slot => slot.1 = sym)).map Prod.snd

/-- Modelled from the spec: `NcStringer` is declared outside this file; it concatenates the
printed forms of the elements of its array argument. -/
def NcStringer (parts : List (List Char)) : List Char := parts.flatten

/-- Modelled from the spec: the printed form that `NcStringer` (declared outside this
file) gives a module name, which is the name itself: the characters of a string, the
name of a symbol. -/
def printed : Ref → List Char
  | .symbol name => name
  | .string s => s
  | _ => []

/-- Path joining as in `NsJoinPath`, on the printed forms of its arguments. -/
def NsJoinPath (r1 r2 : List Char) : List Char :=
  let sep := NewtGetFileSeparator
  NcStringer [r1, [sep], r2]

/-- Installs a dynamic library (`NewtDylibInstall`): the handle (`none` for NULL) and the calls made. -/
def NewtDylibInstall (w : World) (fname : List Char) : Option Nat × List Event :=
  match w.dlopenLib fname with
  | some lib =>
    if w.dlsymInstall lib then (some lib, [Event.dlopen fname, Event.install lib])
    else (none, [Event.dlopen fname, Event.dlclose lib])
  | none => (none, [Event.dlopen fname])

/-- The cast `(int32_t)` of a handle: its low 32 bits, read as a signed number. -/
def toInt32 (n : Nat) : Int := ((n : Int) + 2 ^ 31) % 2 ^ 32 - 2 ^ 31

/-- Loads a library (`NsLoadLib`). On success the result is
`NewtMakeInteger((int32_t)lib)`; `NewtMakeInteger` is declared outside this file and is
taken to make the integer object of the value it is given. -/
def NsLoadLib (w : World) (r : Ref) : Ref × List Event :=
  match r with
  | .string fname =>
    match NewtDylibInstall w fname with
    | (some lib, ev) => (.integer (toInt32 lib), ev)
    | (none, ev) =>
      let msg := match w.dlerror fname with
        | some errmsg => [Event.stderr errmsg]
        | none => []
      (w.throwRet, ev ++ msg ++ [Event.throw .kNErrDylibNotOpen r])
  | _ => (w.throwRet, [Event.throw .kNErrNotAString r])

/-- Compiles a source file (`NsCompileFile`). -/
def NsCompileFile (w : World) (r : Ref) : Ref × List Event :=
  match r with
  | .string fname => (w.compileFile fname, [Event.compile fname])
  | _ => (w.throwRet, [Event.throw .kNErrNotAString r])

/-- Loads a source file (`NsLoad`): compile, then call the result unless it is NIL. -/
def NsLoad (w : World) (r : Ref) : Ref × List Event :=
  let (fn, ev) := NsCompileFile w r
  if fn ≠ .nil then (w.vmCall fn, ev ++ [Event.call fn]) else (.unbind, ev)

/-- The table `lib_exts` of `NcRequire0`. -/
def lib_exts (w : World) : List file_ext_t :=
  [⟨w.dylibSuffix, .typeDylib⟩, ⟨".newt".toList, .typeScript⟩]

/-- The search path of `NcRequire0`: `NEWTLIB`, or `[".", _EXEDIR_]` when it is NIL. -/
def searchPath (w : World) : List (List Char) :=
  match w.newtlib with
  | some dirs => dirs
  | none => [".".toList, w.exedir]

/-- The symbol `sym` computed at the top of `NcRequire0`: the argument itself when it is a
symbol, `NcMakeSymbol` of it when it is a string (the symbol of that name), and `none`
otherwise, where the code throws. -/
def symbolOf : Ref → Option (List Char)
  | .symbol name => some name
  | .string s => some s
  | _ => none

/-- The body of `if (NewtFileExists(...))` in `NcRequire0`: load the file at `path`
according to its type, bind the symbol, and return the symbol. The evaluator and the
library loader are taken not to touch `requires`. -/
def found (w : World) (requires : Frame) (sym : List Char) (path : List Char)
    (type : FileType) (trace : List Event) : Outcome :=
  if type = .typeDylib then
    let (lib, ev) := NsLoadLib w (.string path)
    ⟨.symbol sym, some (NcSetSlot requires sym lib), trace ++ ev⟩
  else
    let requires := NcSetSlot requires sym (.string path)
    let (_, ev) := NsLoad w (.string path)
    ⟨.symbol sym, some requires, trace ++ ev⟩

/-- The inner loop of `NcRequire0` over `lib_exts` (index `j`). `Except.error` is the early
`return sym`; `Except.ok` is falling out of the loop, with the trace so far. -/
def extLoop (w : World) (requires : Frame) (sym : List Char) (joined : List Char) :
    List file_ext_t → List Event → Except Outcome (List Event)
  | [], trace => .ok trace
  | e :: rest, trace =>
    let path := NcStringer [joined, e.ext]
    let trace := trace ++ [Event.probe path]
    if w.fileExists path then .error (found w requires sym path e.type trace)
    else extLoop w requires sym joined rest trace

/-- The outer loop of `NcRequire0` over the search path (index `i`). -/
def dirLoop (w : World) (requires : Frame) (sym : List Char) (r : Ref) :
    List (List Char) → List Event → Except Outcome (List Event)
  | [], trace => .ok trace
  | dir :: rest, trace =>
    match extLoop w requires sym (NsJoinPath dir (printed r)) (lib_exts w) trace with
    | .error out => .error out
    | .ok trace => dirLoop w requires sym r rest trace

/-- Requires a library (`NcRequire0`), run with the global variable `requires` holding
`requires0`; when that is not a frame, a new empty frame is made and stored. -/
def NcRequire0 (w : World) (requires0 : Option Frame) (r : Ref) : Outcome :=
  match symbolOf r with
  | none => ⟨w.throwRet, requires0, [Event.throw .kNErrNotASymbol r]⟩
  | some sym =>
    let requires : Frame := requires0.getD []
    if NewtHasSlot requires sym then ⟨.nil, some requires, []⟩
    else
      match dirLoop w requires sym r (searchPath w) [] with
      | .error out => out
      | .ok trace => ⟨.unbind, some requires, trace⟩

/-- Requires a library, throwing when it is not found (`NsRequire`). -/
def NsRequire (w : World) (requires0 : Option Frame) (r : Ref) : Outcome :=
  let result := NcRequire0 w requires0 r
  if result.ret = .unbind then
    { result with trace := result.trace ++ [Event.throw .kNErrFileNotFound r] }
  else result

/-! ## The resolution order as the specification words it -/

/-- The candidate path for a directory, a module name and an extension:
directory, separator, name, extension. -/
def candidate (dir name ext : List Char) : List Char :=
  dir ++ [NewtGetFileSeparator] ++ name ++ ext

/-- All candidates with their types, directory-major and extension-minor. -/
def candidates (w : World) (dirs : List (List Char)) (name : List Char) :
    List (List Char × FileType) :=
  (dirs.map (fun dir => (lib_exts w).map (fun e => (candidate dir name e.ext, e.type)))).flatten

/-- The first candidate that exists, if any. -/
def firstExisting (w : World) (dirs : List (List Char)) (name : List Char) :
    Option (List Char × FileType) :=
  (candidates w dirs name).find? (fun c => w.fileExists c.1)

/-- The files a trace loads, in order: libraries opened and sources compiled. -/
def loads : List Event → List (List Char × FileType)
  | [] => []
  | Event.dlopen path :: rest => (path, .typeDylib) :: loads rest
  | Event.compile path :: rest => (path, .typeScript) :: loads rest
  | _ :: rest => loads rest

/-- The paths a trace probes for existence, in order. -/
def probes : List Event → List (List Char)
  | [] => []
  | Event.probe path :: rest => path :: probes rest
  | _ :: rest => probes rest

/-- The errors a trace raises through `NewtThrow`, in order, each with its offending
value. -/
def thrown : List Event → List (ErrCode × Ref)
  | [] => []
  | Event.throw err value :: rest => (err, value) :: thrown rest
  | _ :: rest => thrown rest

/-- A world for the examples: the directory `.` holds both `foo.so` and `foo.newt`, the
directory `/lib` holds `bar.newt` only; opening `./foo.so` fails. -/
def demoWorld : World where
  fileExists := fun path =>
    path = "./foo.so".toList || path = "./foo.newt".toList || path = "/lib/bar.newt".toList
  dlopenLib := fun _ => none
  dlsymInstall := fun _ => false
  dlerror := fun _ => none
  compileFile := fun _ => .nil
  vmCall := fun _ => .unbind
  dylibSuffix := ".so".toList
  newtlib := some [".".toList, "/lib".toList]
  exedir := "/bin".toList
  throwRet := .unbind

/-- A world in which no file exists. -/
def emptyWorld : World where
  fileExists := fun _ => false
  dlopenLib := fun _ => none
  dlsymInstall := fun _ => false
  dlerror := fun _ => none
  compileFile := fun _ => .nil
  vmCall := fun _ => .unbind
  dylibSuffix := ".so".toList
  newtlib := none
  exedir := "/bin".toList
  throwRet := .unbind

/-! ## Invariants of the scanning loop -/

/-- Loop invariant for doubled separators: the written part holds no two adjacent
separators, it does not end in a separator when the next character read is one, and
the unread rest holds no two adjacent separators. The written part is a stack, so its
end is the head of the list. -/
abbrev SingleSep (dst src : List Char) : Prop :=
  ¬ ['/', '/'] <:+: dst ∧ (['/'] <+: dst → peek src 0 ≠ '/') ∧ ¬ ['/', '/'] <:+: src

/-- Loop invariant for dot segments: the written part (a stack, so segments read
backwards) holds no `/./` and no `/../`, and what is read next cannot complete one
across the cursor. -/
abbrev NoDotSegment (dst src : List Char) : Prop :=
  (¬ ['/', '.', '/'] <:+: dst ∧ ¬ ['/', '.', '.', '/'] <:+: dst) ∧
  (['/'] <+: dst →
    ¬ (peek src 0 = '.' ∧ peek src 1 = '/') ∧
    ¬ (peek src 0 = '.' ∧ peek src 1 = '.' ∧ peek src 2 = '/')) ∧
  (['.', '/'] <+: dst →
    peek src 0 ≠ '/' ∧ ¬ (peek src 0 = '.' ∧ peek src 1 = '/')) ∧
  (['.', '.', '/'] <+: dst → peek src 0 ≠ '/')

/-! ## Memory blocks and the C string functions used on them -/

/-- Everything outside this file that the path functions consult: the working directory
(`getcwd(NULL, 0)`, `none` for NULL), the account database (`pw_dir` of `getpwnam` and
of `getpwuid(getuid())`, `none` when there is no such account), whether `malloc`
succeeds for a size, and the byte a fresh block of a given size holds at an offset
before anything is written there. -/
structure Platform where
  getcwd : Option (List Char)
  getpwnam : List Char → Option (List Char)
  getpwuid : Option (List Char)
  mallocOk : Nat → Bool
  uninit : Nat → Nat → Char

/-- The characters of a C string: what is read up to the first NUL. -/
def cstr (s : List Char) : List Char := s.takeWhile (fun c => c ≠ NUL)

/-- Length of a C string (`strlen`). -/
def strlen (s : List Char) : Nat := (cstr s).length

/-- Allocation (`malloc`): a block of `n` bytes with whatever the heap holds, or `none`
for NULL. -/
def malloc (p : Platform) (n : Nat) : Option (List Char) :=
  if p.mallocOk n then some ((List.range n).map (p.uninit n)) else none

/-- One byte written into a block at an offset; outside the block the behaviour is
undefined (`none`). -/
def store (b : List Char) (i : Nat) (c : Char) : Option (List Char) :=
  if i < b.length then some (b.set i c) else none

/-- Consecutive bytes written into a block from an offset on. -/
def storeAll : List Char → Nat → List Char → Option (List Char)
  | b, _, [] => some b
  | b, i, c :: cs => (store b i c).bind (fun b' => storeAll b' (i + 1) cs)

/-- String copy into a block at an offset (`strcpy`): the characters and the
terminator. -/
def strcpy (b : List Char) (off : Nat) (src : List Char) : Option (List Char) :=
  storeAll b off (cstr src ++ [NUL])

/-- Bounded string copy into a block at an offset (`strncpy`): exactly `n` bytes are
written, the first characters of the string, then NUL bytes if the string is shorter
than `n`; when it is not shorter, no terminator is written. -/
def strncpy (b : List Char) (off : Nat) (src : List Char) (n : Nat) : Option (List Char) :=
  storeAll b off ((cstr src).take n ++ List.replicate (n - strlen src) NUL)

/-- The C string a block holds from its start; reading past the end of the block before
a NUL is met is undefined (`none`). -/
def load : List Char → Option (List Char)
  | [] => none
  | c :: rest => if c = NUL then some [] else (load rest).map (fun t => c :: t)

/-! ## Joining, base name and directory name -/

/-- Joins a directory name and a file name (`NewtJoinPath`). The lengths are `uint32_t`.
The result is the string the new block holds; `none` stands for NULL (the allocation
failed) and for undefined behaviour (a write outside the block). -/
def NewtJoinPath (p : Platform) (s1 s2 : List Char) (sep : Char) : Option (List Char) :=
  let len1 := strlen s1 % 2 ^ 32
  let len2 := strlen s2 % 2 ^ 32
  let len := (len1 + len2 + 2) % 2 ^ 32
  (malloc p len).bind fun path =>
  (strcpy path 0 s1).bind fun path =>
  (store path len1 sep).bind fun path =>
  (strncpy path (len1 + 1) s2 ((len2 + 1) % 2 ^ 32)).bind fun path =>
  load path

/-- The loop `for (i = 0; i < len; i++) if (s[i] == sep) base = i + 1;` of
`NewtBaseName`, as a fold over the indices. -/
def baseLoop (sep : Char) (s : List Char) (len : Nat) : Nat :=
  (List.range len).foldl (fun base i => if peek s i = sep then i + 1 else base) 0

/-- Base name of a path (`NewtBaseName`): the offset of the returned pointer from `s`, or
`none` for NULL. The string returned is the rest of `s` from that offset on. -/
def NewtBaseName (s : List Char) (len : Nat) : Option Nat :=
  let sep := NewtGetFileSeparator
  let base := baseLoop sep s len
  if base < len then some base else none

/-- Modelled from the spec: `NewtStringLength` is declared outside this file; the scans
are over a string of known length, and this is the length of the string. -/
def NewtStringLength (s : List Char) : Nat := s.length

/-- Modelled from the spec: `NewtMakeString2` is declared outside this file;
`NewtMakeString2(s, n, false)` makes the string of the first `n` characters of `s`. -/
def NewtMakeString2 (s : List Char) (n : Nat) : List Char := s.take n

/-- Directory name of a path (`NsDirName`). Pointers into the string are offsets from
`s`. -/
def NsDirName (w : World) (r : Ref) : Ref × List Event :=
  match r with
  | .string s =>
    let sep := NewtGetFileSeparator
    match NewtBaseName s (NewtStringLength s) with
    | some base =>
      if 0 < base then
        let base := if base - 1 ≠ 0 ∧ peek s (base - 1) = sep then base - 1 else base
        if 0 < base then (.string (NewtMakeString2 s base), [])
        else (.string ".".toList, [])
      else (.string ".".toList, [])
    | none => (.string ".".toList, [])
  | _ => (w.throwRet, [Event.throw .kNErrNotAString r])

/-- A world for the examples of the library loader: `/lib/bad.so` cannot be opened,
`/lib/empty.so` opens (handle 1) but has no `newt_install`, `/lib/good.so` opens
(handle 2) and has it. -/
def dylibWorld : World where
  fileExists := fun _ => true
  dlopenLib := fun path =>
    if path = "/lib/empty.so".toList then some 1
    else if path = "/lib/good.so".toList then some 2
    else none
  dlsymInstall := fun lib => lib == 2
  dlerror := fun _ => some "error".toList
  compileFile := fun _ => .nil
  vmCall := fun _ => .unbind
  dylibSuffix := ".so".toList
  newtlib := none
  exedir := "/bin".toList
  throwRet := .unbind

/-! ## Home directory and path expansion -/

/-- First occurrence of a character in a C string (`strchr`): its offset, or `none` for
NULL. -/
def strchr (s : List Char) (c : Char) : Option Nat :=
  if (cstr s).indexOf c < (cstr s).length then some ((cstr s).indexOf c) else none

/-- Home directory of the user a path names (`NewtGetHomeDir`, the UNIX version), for a
path that starts with `~`. The result is the pair of the returned directory and of
`*subdir`, each `none` for NULL; the whole is `none` where the behaviour is undefined.
The login copied by `strncpy` gets no terminator, so the name looked up is what the
block reads as. The first `getpwnam(s + 1)` is overwritten before use and left out. -/
def NewtGetHomeDir (p : Platform) (s : List Char) :
    Option (Option (List Char) × Option (List Char)) :=
  let sep := NewtGetFileSeparator
  let rest := cstr (s.drop 1)
  let sepp := strchr rest sep
  let login : Option (List Char) :=
    match sepp with
    | some off =>
      let len := off % 2 ^ 32
      (malloc p ((len + 1) % 2 ^ 32)).bind fun login =>
      (strncpy login 0 rest len).bind fun login =>
      load login
    | none => some rest
  login.bind fun login =>
    let pswd := if peek login 0 ≠ NUL then p.getpwnam login else p.getpwuid
    some (pswd, sepp.map (fun off => rest.drop off))

/-- Expansion of a path to an absolute path (`NewtExpandPath`, without the Windows
branch). The result is the string made by `NSSTR(dir)`; `none` where the behaviour is
undefined (NULL from `getcwd` or `NewtJoinPath` is used without a test). -/
def NewtExpandPath (p : Platform) (s : List Char) : Option (List Char) :=
  let sep := NewtGetFileSeparator
  let branch : Option (Option (List Char) × Option (List Char)) :=
    if peek s 0 = sep then some (some (cstr s), none)
    else if peek s 0 = '~' then
      (NewtGetHomeDir p s).map fun (dir, subdir) =>
        match subdir with
        | some sub => if peek sub 1 ≠ NUL then (dir, some (sub.drop 1)) else (dir, none)
        | none => (dir, none)
    else some (none, some (cstr s))
  branch.bind fun (dir, subdir) =>
    let dir := match dir with
      | some d => some d
      | none => p.getcwd
    dir.bind fun dir =>
      match subdir with
      | some sub => (NewtJoinPath p dir sub sep).map NewtRelToAbsPath
      | none => some dir

/-- A platform for the examples: the working directory is `/home/u`, the current user's
home is `/home/u`, the account `alice` has the home `/home/alice`, there is no other
account, every allocation succeeds, and fresh blocks hold zero bytes. -/
def demoPlatform : Platform where
  getcwd := some "/home/u".toList
  getpwnam := fun login =>
    if login = "alice".toList then some "/home/alice".toList else none
  getpwuid := some "/home/u".toList
  mallocOk := fun _ => true
  uninit := fun _ _ => NUL

/-- The same platform with a heap whose fresh blocks hold the byte `Z`. -/
def dirtyPlatform : Platform :=
  { demoPlatform with uninit := fun _ _ => 'Z' }

/-- A path without a `/./` and without a `/../` segment. -/
abbrev NoDots (d : List Char) : Prop :=
  ¬ ['/', '.', '/'] <:+: d ∧ ¬ ['/', '.', '.', '/'] <:+: d

/-! ## The canonicalizer with its cursors -/

/-- The state of the loop of `NewtRelToAbsPath` as the C code holds it: the buffer `s` and
the cursors `src` and `dst` as offsets from `s`. The offset of `dst` is an integer, so
that a cursor before the start of the buffer can be told from one at the start. -/
structure Cursors where
  buf : List Char
  src : Nat
  dst : Int
  deriving DecidableEq

/-- The byte at a signed offset from `s`. Before the start of the buffer nothing is known
of it; NUL is taken. -/
def byteAt (buf : List Char) (i : Int) : Char :=
  if i < 0 then NUL else peek buf i.toNat

/-- A byte written at a signed offset from `s`; a write before the start of the buffer
leaves the buffer as it is. -/
def writeAt (buf : List Char) (i : Int) (c : Char) : List Char :=
  if i < 0 then buf else buf.set i.toNat c

/-- The inner loop `while (s < dst) { dst--; if (*dst == sep) break; }` on the cursor
itself. The test `s < dst` is `0 < dst` on offsets. -/
def rewindCursor (sep : Char) (buf : List Char) : Nat → Int → Int
  | 0, dst => dst
  | fuel + 1, dst =>
    if 0 < dst then
      if byteAt buf (dst - 1) = sep then dst - 1
      else rewindCursor sep buf fuel (dst - 1)
    else dst

/-- One iteration of the loop `for (src = dst = s; *src != 0;)` on the cursors; `none`
when the loop ends. -/
def stepCursors (sep : Char) (st : Cursors) : Option Cursors :=
  let src := st.buf.drop st.src
  let copy : Cursors :=
    { buf := if (st.src : Int) ≠ st.dst then writeAt st.buf st.dst (peek src 0) else st.buf
      src := st.src + 1
      dst := st.dst + 1 }
  if peek src 0 = NUL then none
  else if peek src 0 = sep ∧ peek src 1 = '.' then
    if peek src 2 = sep ∨ peek src 2 = NUL then
      some { st with src := st.src + 2 }
    else if peek src 2 = '.' ∧ peek src 3 = sep then
      some { st with src := st.src + 3, dst := rewindCursor sep st.buf st.dst.toNat st.dst }
    else some copy
  else some copy

/-- The loop on the cursors, for a number of iterations at most. -/
def scanCursors (sep : Char) : Nat → Cursors → Cursors
  | 0, st => st
  | fuel + 1, st =>
    match stepCursors sep st with
    | none => st
    | some st' => scanCursors sep fuel st'

/-- The canonicalizer on the buffer and its cursors (`NewtRelToAbsPath` as the C code
runs it): the loop, the terminator, and the string read back. -/
def NewtRelToAbsPathCursors (s : List Char) : List Char :=
  let sep := NewtGetFileSeparator
  let st := scanCursors sep s.length ⟨s, 0, 0⟩
  let buf :=
    if 0 < st.dst ∧ byteAt st.buf (st.dst - 1) = sep then writeAt st.buf (st.dst - 1) NUL
    else if (st.src : Int) ≠ st.dst then writeAt st.buf st.dst NUL
    else st.buf
  cstr buf

/-! ## The scanning loop, step by step -/

theorem scan_fuel (sep : Char) : ∀ (f1 f2 : Nat) (src dst : List Char),
    src.length ≤ f1 → src.length ≤ f2 → scan sep f1 src dst = scan sep f2 src dst := by
  intro f1
  induction f1 with
  | zero =>
    intro f2 src dst h1 _
    have hs : src = [] := List.length_eq_zero.mp (Nat.le_zero.mp h1)
    subst hs
    cases f2 <;> simp [scan, peek]
  | succ n ih =>
    intro f2 src dst h1 h2
    cases f2 with
    | zero =>
      have hs : src = [] := List.length_eq_zero.mp (Nat.le_zero.mp h2)
      subst hs
      simp [scan, peek]
    | succ m =>
      cases src with
      | nil => simp [scan, peek]
      | cons c rest =>
        have hn : rest.length ≤ n := by simpa using h1
        have hm : rest.length ≤ m := by simpa using h2
        have e1 := ih m rest
        have e2 := ih m (rest.drop 1)
        have e3 := ih m (rest.drop 2)
        have l2 : (rest.drop 1).length ≤ rest.length := by simp
        have l3 : (rest.drop 2).length ≤ rest.length := by simp
        unfold scan
        simp only [List.drop_succ_cons, List.drop_zero]
        rw [e1 _ hn hm, e2 _ (by omega) (by omega), e3 _ (by omega) (by omega)]

/-- More fuel than the length of the input changes nothing: the canonicalizer's scan has
ended by then. -/
theorem scan_fuel_enough (s : List Char) (fuel : Nat) (h : s.length ≤ fuel) :
    terminate NewtGetFileSeparator (scan NewtGetFileSeparator fuel s []) = NewtRelToAbsPath s := by
  unfold NewtRelToAbsPath
  rw [scan_fuel _ fuel s.length s [] h (Nat.le_refl _)]

theorem run_nil (dst : List Char) : run [] dst = dst := by
  simp [run, scan]

theorem run_cons_plain (c : Char) (rest dst : List Char) (h0 : c ≠ NUL) (hs : c ≠ '/') :
    run (c :: rest) dst = run rest (c :: dst) := by
  simp [run, scan, peek, h0, hs]

theorem run_sep_plain (x : Char) (rest dst : List Char) (hx : x ≠ '.') :
    run ('/' :: x :: rest) dst = run (x :: rest) ('/' :: dst) := by
  have : ('/' : Char) ≠ NUL := by decide
  simp [run, scan, peek, hx, this]

theorem run_sep_end (dst : List Char) : run ['/'] dst = '/' :: dst := by
  have : ('/' : Char) ≠ NUL := by decide
  have h2 : NUL ≠ '.' := by decide
  simp [run, scan, peek, this, h2]

theorem run_skip_sep (rest dst : List Char) :
    run ('/' :: '.' :: '/' :: rest) dst = run ('/' :: rest) dst := by
  have : ('/' : Char) ≠ NUL := by decide
  simp only [run, List.length_cons]
  rw [scan]
  simp [peek, this]
  exact scan_fuel _ _ _ _ _ (by simp) (by simp)

theorem run_skip_end (dst : List Char) : run ['/', '.'] dst = dst := by
  have : ('/' : Char) ≠ NUL := by decide
  simp [run, scan, peek, this]

theorem run_rewind (rest dst : List Char) :
    run ('/' :: '.' :: '.' :: '/' :: rest) dst = run ('/' :: rest) (rewind '/' dst) := by
  have h1 : ('/' : Char) ≠ NUL := by decide
  have h2 : ('.' : Char) ≠ '/' := by decide
  have h3 : ('.' : Char) ≠ NUL := by decide
  simp only [run, List.length_cons]
  rw [scan]
  simp [peek, h1, h2, h3]
  exact scan_fuel _ _ _ _ _ (by simp) (by simp)

theorem NewtRelToAbsPath_eq (s : List Char) : NewtRelToAbsPath s = terminate '/' (run s []) := rfl

theorem run_append_plain (comp : List Char) (h : ∀ x ∈ comp, x ≠ NUL ∧ x ≠ '/') :
    ∀ (rest dst : List Char), run (comp ++ rest) dst = run rest (comp.reverse ++ dst) := by
  induction comp with
  | nil => intro rest dst; simp
  | cons c t ih =>
    intro rest dst
    have hc := h c (List.mem_cons_self _ _)
    have ht : ∀ x ∈ t, x ≠ NUL ∧ x ≠ '/' := fun x hx => h x (List.mem_cons_of_mem _ hx)
    rw [List.cons_append, run_cons_plain c _ _ hc.1 hc.2, ih ht]
    simp

theorem rewind_append (comp : List Char) (h : ∀ x ∈ comp, x ≠ '/') (X : List Char) :
    rewind '/' (comp ++ '/' :: X) = X := by
  induction comp with
  | nil => simp [rewind]
  | cons c t ih =>
    have hc := h c (List.mem_cons_self _ _)
    have ht : ∀ x ∈ t, x ≠ '/' := fun x hx => h x (List.mem_cons_of_mem _ hx)
    simp [rewind, hc, ih ht]

theorem terminate_plain (dst : List Char) (h : dst.head? ≠ some '/') :
    terminate '/' dst = dst.reverse := by
  cases dst with
  | nil => rfl
  | cons c t =>
    have : c ≠ '/' := by simpa using h
    simp [terminate, this]

/-- Scanning `/comp` when `comp` is a component: everything is copied. -/
theorem run_sep_component (comp : List Char) (hc : IsComponent comp) (rest dst : List Char) :
    run ('/' :: comp ++ rest) dst = run rest (comp.reverse ++ '/' :: dst) := by
  obtain ⟨hne, hall⟩ := hc
  cases comp with
  | nil => exact absurd rfl hne
  | cons c0 t =>
    have h0 := hall c0 (List.mem_cons_self _ _)
    have hp : ∀ x ∈ c0 :: t, x ≠ NUL ∧ x ≠ '/' := fun x hx => ⟨(hall x hx).2.2, (hall x hx).1⟩
    rw [List.cons_append, List.cons_append, run_sep_plain c0 _ _ h0.2.1, ← List.cons_append,
      run_append_plain _ hp]

/-- C1: for non-empty component names a, b, c (no separator, no dot), the canonicalizer maps
`/a/./b/../c` to `/a/c`. -/
theorem C1_dot_and_dotdot (a b c : List Char)
    (ha : IsComponent a) (hb : IsComponent b) (hc : IsComponent c) :
    NewtRelToAbsPath ('/' :: a ++ ['/', '.', '/'] ++ b ++ ['/', '.', '.', '/'] ++ c)
      = '/' :: a ++ '/' :: c := by
  have hbs : ∀ x ∈ b.reverse, x ≠ '/' := fun x hx => (hb.2 x (List.mem_reverse.mp hx)).1
  have e1 : '/' :: a ++ ['/', '.', '/'] ++ b ++ ['/', '.', '.', '/'] ++ c
      = '/' :: a ++ ('/' :: '.' :: '/' :: (b ++ '/' :: '.' :: '.' :: '/' :: c)) := by simp
  have e2 : '/' :: (b ++ '/' :: '.' :: '.' :: '/' :: c)
      = '/' :: b ++ ('/' :: '.' :: '.' :: '/' :: c) := by simp
  have e3 : '/' :: c = '/' :: c ++ [] := by simp
  rw [NewtRelToAbsPath_eq, e1, run_sep_component a ha, run_skip_sep, e2, run_sep_component b hb,
    run_rewind, rewind_append _ hbs, e3, run_sep_component c hc, run_nil, terminate_plain]
  · simp
  · obtain ⟨hne, hall⟩ := hc
    have hl := hall (c.getLast hne) (List.getLast_mem hne)
    rw [List.head?_append_of_ne_nil _ (by simpa using hne), List.head?_reverse,
      List.getLast?_eq_getLast _ hne]
    simpa using hl.1

theorem C1_dot_and_dotdot_witness :
    NewtRelToAbsPath "/a/./b/../c".toList = "/a/c".toList :=
  C1_dot_and_dotdot ['a'] ['b'] ['c'] (by decide) (by decide) (by decide)

/-! ## Module resolution -/

theorem candidate_eq (dir name ext : List Char) :
    NcStringer [NsJoinPath dir name, ext] = candidate dir name ext := by
  simp [NcStringer, NsJoinPath, candidate]

theorem loads_append (t1 t2 : List Event) : loads (t1 ++ t2) = loads t1 ++ loads t2 := by
  induction t1 with
  | nil => rfl
  | cons e t ih => cases e <;> simp [loads, ih]

theorem loads_probes (tr : List Event) (h : ∀ ev ∈ tr, ∃ p, ev = Event.probe p) :
    loads tr = [] := by
  induction tr with
  | nil => rfl
  | cons e t ih =>
    obtain ⟨p, hp⟩ := h e (List.mem_cons_self _ _)
    subst hp
    simpa [loads] using ih (fun ev hev => h ev (List.mem_cons_of_mem _ hev))

theorem found_ret (w : World) (requires : Frame) (sym path : List Char) (type : FileType)
    (trace : List Event) : (found w requires sym path type trace).ret = .symbol sym := by
  unfold found; split <;> rfl

/-- The inner loop in closed form: it stops at the first existing candidate of the
directory, having only probed before. -/
theorem extLoop_eq (w : World) (requires : Frame) (sym dir name : List Char) :
    ∀ (exts : List file_ext_t) (trace : List Event),
      ∃ tr, (∀ ev ∈ tr, ∃ p, ev = Event.probe p) ∧
        extLoop w requires sym (NsJoinPath dir name) exts trace =
          match (exts.map (fun e => (candidate dir name e.ext, e.type))).find?
              (fun c => w.fileExists c.1) with
          | none => .ok (trace ++ tr)
          | some c => .error (found w requires sym c.1 c.2 (trace ++ tr)) := by
  intro exts
  induction exts with
  | nil => intro trace; exact ⟨[], by simp, by simp [extLoop]⟩
  | cons e rest ih =>
    intro trace
    by_cases h : w.fileExists (candidate dir name e.ext) = true
    · refine ⟨[Event.probe (candidate dir name e.ext)], by simp, ?_⟩
      simp [extLoop, candidate_eq, h, List.find?]
    · obtain ⟨tr, htr, heq⟩ := ih (trace ++ [Event.probe (candidate dir name e.ext)])
      refine ⟨Event.probe (candidate dir name e.ext) :: tr, ?_, ?_⟩
      · intro ev hev
        rcases List.mem_cons.mp hev with rfl | hev
        · exact ⟨_, rfl⟩
        · exact htr ev hev
      · have h' : w.fileExists (candidate dir name e.ext) = false := by simpa using h
        simp only [extLoop, candidate_eq, h', List.map_cons, List.find?_cons]
        simpa using heq

theorem candidates_cons (w : World) (dir : List Char) (dirs : List (List Char))
    (name : List Char) :
    candidates w (dir :: dirs) name =
      (lib_exts w).map (fun e => (candidate dir name e.ext, e.type)) ++ candidates w dirs name := by
  simp [candidates]

/-- The outer loop in closed form: it stops at the first existing candidate in
directory-major, extension-minor order, having only probed before. -/
theorem dirLoop_eq (w : World) (requires : Frame) (sym : List Char) (r : Ref) :
    ∀ (dirs : List (List Char)) (trace : List Event),
      ∃ tr, (∀ ev ∈ tr, ∃ p, ev = Event.probe p) ∧
        dirLoop w requires sym r dirs trace =
          match firstExisting w dirs (printed r) with
          | none => .ok (trace ++ tr)
          | some c => .error (found w requires sym c.1 c.2 (trace ++ tr)) := by
  intro dirs
  induction dirs with
  | nil => intro trace; exact ⟨[], by simp, by simp [dirLoop, firstExisting, candidates]⟩
  | cons dir rest ih =>
    intro trace
    obtain ⟨tr1, htr1, heq1⟩ := extLoop_eq w requires sym dir (printed r) (lib_exts w) trace
    unfold dirLoop firstExisting
    rw [candidates_cons, List.find?_append, heq1]
    cases hf : ((lib_exts w).map (fun e => (candidate dir (printed r) e.ext, e.type))).find?
        (fun c => w.fileExists c.1) with
    | some c => exact ⟨tr1, htr1, by simp⟩
    | none =>
      obtain ⟨tr2, htr2, heq2⟩ := ih (trace ++ tr1)
      refine ⟨tr1 ++ tr2, ?_, ?_⟩
      · intro ev hev
        rcases List.mem_append.mp hev with hev | hev
        · exact htr1 ev hev
        · exact htr2 ev hev
      · simp only [Option.none_or]
        rw [heq2]
        unfold firstExisting
        simp [List.append_assoc]

theorem loads_NsLoadLib (w : World) (path : List Char) :
    loads (NsLoadLib w (.string path)).2 = [(path, .typeDylib)] := by
  unfold NsLoadLib NewtDylibInstall
  rcases h : w.dlopenLib path with _ | lib
  · rcases hd : w.dlerror path with _ | msg <;> simp [h, hd, loads, loads_append]
  · by_cases h2 : w.dlsymInstall lib = true
    · simp [h, h2, loads]
    · rcases hd : w.dlerror path with _ | msg <;> simp [h, hd, h2, loads, loads_append]

theorem loads_NsLoad (w : World) (path : List Char) :
    loads (NsLoad w (.string path)).2 = [(path, .typeScript)] := by
  unfold NsLoad NsCompileFile
  by_cases h : w.compileFile path = .nil
  · simp [h, loads]
  · simp [h, loads]

theorem found_loads (w : World) (requires : Frame) (sym path : List Char) (type : FileType)
    (trace : List Event) :
    loads (found w requires sym path type trace).trace = loads trace ++ [(path, type)] := by
  unfold found
  cases type with
  | typeDylib => simp [loads_append, loads_NsLoadLib]
  | typeScript => simp [loads_append, loads_NsLoad]

theorem found_requires (w : World) (requires : Frame) (sym path : List Char) (type : FileType)
    (trace : List Event) :
    (found w requires sym path type trace).requires =
      some (NcSetSlot requires sym
        (if type = .typeDylib then (NsLoadLib w (.string path)).1 else .string path)) := by
  unfold found
  cases type <;> simp

theorem NewtHasSlot_NcSetSlot (frame : Frame) (sym : List Char) (v : Ref) :
    NewtHasSlot (NcSetSlot frame sym v) sym = true := by
  induction frame with
  | nil => simp [NcSetSlot, NewtHasSlot]
  | cons slot rest ih =>
    unfold NcSetSlot
    by_cases h : slot.1 = sym
    · simp [h, NewtHasSlot]
    · simp only [h, if_false]
      simp only [NewtHasSlot, List.any_cons] at ih ⊢
      simp [ih]

theorem getSlot_NcSetSlot (frame : Frame) (sym : List Char) (v : Ref) :
    getSlot (NcSetSlot frame sym v) sym = some v := by
  induction frame with
  | nil => simp [NcSetSlot, getSlot]
  | cons slot rest ih =>
    unfold NcSetSlot
    by_cases h : slot.1 = sym
    · simp [h, getSlot]
    · simp only [h, if_false]
      simp only [getSlot, List.find?_cons] at ih ⊢
      simp [h, ih]

/-- The first call of `NcRequire0` on a registered symbol. -/
theorem NcRequire0_registered (w : World) (requires0 : Option Frame) (r : Ref)
    (sym : List Char) (hsym : symbolOf r = some sym)
    (hreg : NewtHasSlot (requires0.getD []) sym = true) :
    NcRequire0 w requires0 r = ⟨.nil, requires0, []⟩ := by
  cases requires0 with
  | none => simp [NewtHasSlot] at hreg
  | some frame =>
    simp only [Option.getD_some] at hreg
    simp [NcRequire0, hsym, hreg]

/-- The call of `NcRequire0` on a symbol that is not registered, in closed form. -/
theorem NcRequire0_new (w : World) (requires0 : Option Frame) (r : Ref)
    (sym : List Char) (hsym : symbolOf r = some sym)
    (hnew : NewtHasSlot (requires0.getD []) sym = false) :
    ∃ tr, (∀ ev ∈ tr, ∃ p, ev = Event.probe p) ∧
      NcRequire0 w requires0 r =
        match firstExisting w (searchPath w) (printed r) with
        | none => ⟨.unbind, some (requires0.getD []), tr⟩
        | some c => found w (requires0.getD []) sym c.1 c.2 tr := by
  obtain ⟨tr, htr, heq⟩ := dirLoop_eq w (requires0.getD []) sym r (searchPath w) []
  refine ⟨tr, htr, ?_⟩
  simp only [NcRequire0, hsym, hnew, heq]
  cases firstExisting w (searchPath w) (printed r) <;> simp

theorem firstExisting_append (w : World) (pre post : List (List Char)) (name : List Char) :
    firstExisting w (pre ++ post) name =
      (firstExisting w pre name).or (firstExisting w post name) := by
  simp [firstExisting, candidates]

theorem firstExisting_cons (w : World) (dir : List Char) (post : List (List Char))
    (name : List Char) :
    firstExisting w (dir :: post) name =
      if w.fileExists (candidate dir name w.dylibSuffix) = true then
        some (candidate dir name w.dylibSuffix, .typeDylib)
      else if w.fileExists (candidate dir name ".newt".toList) = true then
        some (candidate dir name ".newt".toList, .typeScript)
      else firstExisting w post name := by
  unfold firstExisting
  rw [candidates_cons, List.find?_append]
  simp only [lib_exts, List.map_cons, List.map_nil, List.find?_cons, List.find?_nil]
  by_cases h1 : w.fileExists (candidate dir name w.dylibSuffix) = true
  · simp only [h1, if_true, Option.or_some]
  · by_cases h2 : w.fileExists (candidate dir name ".newt".toList) = true
    · simp only [h1, h2, if_true, Option.or_some]
      simp
    · simp only [h1, h2, if_false]
      simp

theorem firstExisting_eq_none (w : World) (dirs : List (List Char)) (name : List Char) :
    firstExisting w dirs name = none ↔
      ∀ dir ∈ dirs, ∀ e ∈ lib_exts w, w.fileExists (candidate dir name e.ext) = false := by
  simp only [firstExisting, List.find?_eq_none, candidates, List.mem_flatten, List.mem_map]
  constructor
  · intro h dir hdir e he
    have := h (candidate dir name e.ext, e.type) ⟨_, ⟨dir, hdir, rfl⟩, List.mem_map.mpr ⟨e, he, rfl⟩⟩
    simpa using this
  · rintro h c ⟨l, ⟨dir, hdir, rfl⟩, hc⟩
    obtain ⟨e, he, rfl⟩ := List.mem_map.mp hc
    simp [h dir hdir e he]

theorem thrown_append (t1 t2 : List Event) : thrown (t1 ++ t2) = thrown t1 ++ thrown t2 := by
  induction t1 with
  | nil => rfl
  | cons e t ih => cases e <;> simp [thrown, ih]

theorem thrown_probes (tr : List Event) (h : ∀ ev ∈ tr, ∃ p, ev = Event.probe p) :
    thrown tr = [] := by
  induction tr with
  | nil => rfl
  | cons e t ih =>
    obtain ⟨p, hp⟩ := h e (List.mem_cons_self _ _)
    subst hp
    simpa [thrown] using ih (fun ev hev => h ev (List.mem_cons_of_mem _ hev))

theorem thrown_NsLoadLib (w : World) (path : List Char) :
    ∀ x ∈ thrown (NsLoadLib w (.string path)).2, x.1 = ErrCode.kNErrDylibNotOpen := by
  unfold NsLoadLib NewtDylibInstall
  rcases h : w.dlopenLib path with _ | lib
  · rcases hd : w.dlerror path with _ | msg <;> simp [h, hd, thrown, thrown_append]
  · by_cases h2 : w.dlsymInstall lib = true
    · simp [h, h2, thrown]
    · rcases hd : w.dlerror path with _ | msg <;> simp [h, hd, h2, thrown, thrown_append]

theorem thrown_NsLoad (w : World) (path : List Char) :
    thrown (NsLoad w (.string path)).2 = [] := by
  unfold NsLoad NsCompileFile
  by_cases h : w.compileFile path = .nil
  · simp [h, thrown]
  · simp [h, thrown]

theorem found_thrown (w : World) (requires : Frame) (sym path : List Char) (type : FileType)
    (trace : List Event) (h : thrown trace = []) :
    ∀ x ∈ thrown (found w requires sym path type trace).trace,
      x.1 = ErrCode.kNErrDylibNotOpen := by
  unfold found
  cases type with
  | typeDylib =>
    simp only [if_true, thrown_append, h, List.nil_append]
    exact thrown_NsLoadLib w path
  | typeScript => simp [thrown_append, h, thrown_NsLoad]

/-- The only errors `NcRequire0` raises are: not a symbol, library not opened. -/
theorem NcRequire0_thrown (w : World) (requires0 : Option Frame) (r : Ref) :
    ∀ x ∈ thrown (NcRequire0 w requires0 r).trace, x.1 ≠ ErrCode.kNErrFileNotFound := by
  cases hsym : symbolOf r with
  | none => simp [NcRequire0, hsym, thrown]
  | some sym =>
    by_cases hreg : NewtHasSlot (requires0.getD []) sym = true
    · rw [NcRequire0_registered w requires0 r sym hsym hreg]
      simp [thrown]
    · have hnew : NewtHasSlot (requires0.getD []) sym = false := by simpa using hreg
      obtain ⟨tr, htr, heq⟩ := NcRequire0_new w requires0 r sym hsym hnew
      rw [heq]
      cases firstExisting w (searchPath w) (printed r) with
      | none => simp [thrown_probes tr htr]
      | some c =>
        intro x hx
        have := found_thrown w (requires0.getD []) sym c.1 c.2 tr (thrown_probes tr htr) x hx
        simp [this]

/-- C2: for an unregistered module name, whatever the search path and whatever files exist,
`NcRequire0` loads exactly the first existing candidate in directory-major,
extension-minor order, the candidates of a directory being directory, separator, name,
native suffix (a library) and directory, separator, name, `.newt` (a script). Hence a
library is chosen over a script in the same directory, and a script that exists only in
the second directory is resolved when the first directory has neither file. -/
theorem C2_first_existing_candidate (w : World) (requires0 : Option Frame) (r : Ref)
    (sym : List Char) (hsym : symbolOf r = some sym)
    (hnew : NewtHasSlot (requires0.getD []) sym = false) :
    candidates w (searchPath w) (printed r) =
        ((searchPath w).map (fun dir =>
          [(dir ++ ['/'] ++ printed r ++ w.dylibSuffix, FileType.typeDylib),
           (dir ++ ['/'] ++ printed r ++ ".newt".toList, FileType.typeScript)])).flatten ∧
      loads (NcRequire0 w requires0 r).trace =
        (firstExisting w (searchPath w) (printed r)).toList ∧
      (NcRequire0 w requires0 r).ret =
        (if (firstExisting w (searchPath w) (printed r)).isSome then .symbol sym else .unbind) ∧
      (∀ pre dir post, searchPath w = pre ++ dir :: post →
        firstExisting w pre (printed r) = none →
        w.fileExists (candidate dir (printed r) w.dylibSuffix) = true →
        loads (NcRequire0 w requires0 r).trace =
          [(candidate dir (printed r) w.dylibSuffix, FileType.typeDylib)]) ∧
      (∀ d1 d2 post, searchPath w = d1 :: d2 :: post →
        w.fileExists (candidate d1 (printed r) w.dylibSuffix) = false →
        w.fileExists (candidate d1 (printed r) ".newt".toList) = false →
        w.fileExists (candidate d2 (printed r) w.dylibSuffix) = false →
        w.fileExists (candidate d2 (printed r) ".newt".toList) = true →
        (NcRequire0 w requires0 r).ret = .symbol sym ∧
          loads (NcRequire0 w requires0 r).trace =
            [(candidate d2 (printed r) ".newt".toList, FileType.typeScript)]) := by
  obtain ⟨tr, htr, heq⟩ := NcRequire0_new w requires0 r sym hsym hnew
  have hloads : loads (NcRequire0 w requires0 r).trace =
      (firstExisting w (searchPath w) (printed r)).toList := by
    rw [heq]
    cases firstExisting w (searchPath w) (printed r) with
    | none => simp [loads_probes tr htr]
    | some c => simp [found_loads, loads_probes tr htr]
  have hret : (NcRequire0 w requires0 r).ret =
      (if (firstExisting w (searchPath w) (printed r)).isSome then .symbol sym else .unbind) := by
    rw [heq]
    cases firstExisting w (searchPath w) (printed r) with
    | none => simp
    | some c => simp [found_ret]
  refine ⟨?_, hloads, hret, ?_, ?_⟩
  · simp [candidates, lib_exts, candidate, NewtGetFileSeparator]
  · intro pre dir post hsp hpre hnat
    rw [hloads, hsp, firstExisting_append, hpre, firstExisting_cons, if_pos hnat]
    simp
  · intro d1 d2 post hsp h1 h2 h3 h4
    have hfe : firstExisting w (searchPath w) (printed r) =
        some (candidate d2 (printed r) ".newt".toList, FileType.typeScript) := by
      rw [hsp, firstExisting_cons, firstExisting_cons]
      simp only [h1, h2, h3, h4, if_true]
      simp
    rw [hret, hloads, hfe]
    simp

theorem C2_first_existing_candidate_witness :
    loads (NcRequire0 demoWorld none (.symbol "foo".toList)).trace =
        [("./foo.so".toList, FileType.typeDylib)] ∧
      ((NcRequire0 demoWorld none (.symbol "bar".toList)).ret = .symbol "bar".toList ∧
        loads (NcRequire0 demoWorld none (.symbol "bar".toList)).trace =
          [("/lib/bar.newt".toList, FileType.typeScript)]) :=
  ⟨(C2_first_existing_candidate demoWorld none (.symbol "foo".toList) "foo".toList
      rfl (by decide)).2.2.2.1 [] ".".toList ["/lib".toList] rfl rfl (by decide),
   (C2_first_existing_candidate demoWorld none (.symbol "bar".toList) "bar".toList
      rfl (by decide)).2.2.2.2 ".".toList "/lib".toList [] rfl
      (by decide) (by decide) (by decide) (by decide)⟩

/-- C3: for a module symbol that is already a key of the registry, `NcRequire0` returns NIL
(neither the symbol nor the not-found sentinel), leaves the registry unchanged and calls
no collaborator, so no file is probed: the outcome is the same in any two worlds, that is
for any two file-existence oracles and any two search paths. -/
theorem C3_already_satisfied (w w' : World) (requires0 : Option Frame) (r : Ref)
    (sym : List Char) (hsym : symbolOf r = some sym)
    (hreg : NewtHasSlot (requires0.getD []) sym = true) :
    (NcRequire0 w requires0 r).ret = .nil ∧
      (NcRequire0 w requires0 r).ret ≠ .symbol sym ∧
      (NcRequire0 w requires0 r).ret ≠ .unbind ∧
      (NcRequire0 w requires0 r).requires = requires0 ∧
      (NcRequire0 w requires0 r).trace = [] ∧
      probes (NcRequire0 w requires0 r).trace = [] ∧
      NcRequire0 w' requires0 r = NcRequire0 w requires0 r := by
  rw [NcRequire0_registered w requires0 r sym hsym hreg,
    NcRequire0_registered w' requires0 r sym hsym hreg]
  simp [probes]

theorem C3_already_satisfied_witness :
    (NcRequire0 demoWorld (some [("foo".toList, Ref.integer 7)]) (.symbol "foo".toList)).ret
        = .nil ∧
      NcRequire0 emptyWorld (some [("foo".toList, Ref.integer 7)]) (.symbol "foo".toList) =
        NcRequire0 demoWorld (some [("foo".toList, Ref.integer 7)]) (.symbol "foo".toList) :=
  have h := C3_already_satisfied demoWorld emptyWorld (some [("foo".toList, Ref.integer 7)])
    (.symbol "foo".toList) "foo".toList rfl (by decide)
  ⟨h.1, h.2.2.2.2.2.2⟩

/-- C4: whenever `NcRequire0` returns the symbol (some candidate existed), the registry after
the call binds the symbol, to the result of the library loader for a library and to the
candidate path for a script, whether or not the load succeeded; so a second call on the
same argument returns NIL and calls no collaborator, whatever files exist by then. -/
theorem C4_resolved_is_registered (w w' : World) (requires0 : Option Frame) (r : Ref)
    (sym : List Char) (hsym : symbolOf r = some sym)
    (hres : (NcRequire0 w requires0 r).ret = .symbol sym) :
    (match firstExisting w (searchPath w) (printed r) with
      | some (path, .typeDylib) =>
        getSlot ((NcRequire0 w requires0 r).requires.getD []) sym =
          some (NsLoadLib w (.string path)).1
      | some (path, .typeScript) =>
        getSlot ((NcRequire0 w requires0 r).requires.getD []) sym = some (.string path)
      | none => False) ∧
      NewtHasSlot ((NcRequire0 w requires0 r).requires.getD []) sym = true ∧
      NcRequire0 w' (NcRequire0 w requires0 r).requires r =
        ⟨.nil, (NcRequire0 w requires0 r).requires, []⟩ := by
  by_cases hreg : NewtHasSlot (requires0.getD []) sym = true
  · rw [NcRequire0_registered w requires0 r sym hsym hreg] at hres
    simp at hres
  · have hnew : NewtHasSlot (requires0.getD []) sym = false := by simpa using hreg
    obtain ⟨tr, htr, heq⟩ := NcRequire0_new w requires0 r sym hsym hnew
    rw [heq] at hres ⊢
    rcases hfe : firstExisting w (searchPath w) (printed r) with _ | ⟨path, type⟩
    · rw [hfe] at hres
      simp at hres
    · simp only [found_requires, Option.getD_some]
      have hhas := NewtHasSlot_NcSetSlot (requires0.getD []) sym
        (if type = .typeDylib then (NsLoadLib w (.string path)).1 else .string path)
      refine ⟨?_, hhas, ?_⟩
      · cases type <;> simp [getSlot_NcSetSlot]
      · exact NcRequire0_registered w' _ r sym hsym (by simpa using hhas)

theorem C4_resolved_is_registered_witness :
    getSlot ((NcRequire0 demoWorld none (.symbol "foo".toList)).requires.getD [])
        "foo".toList = some .unbind ∧
      (NcRequire0 emptyWorld (NcRequire0 demoWorld none (.symbol "foo".toList)).requires
        (.symbol "foo".toList)).ret = .nil :=
  have h := C4_resolved_is_registered demoWorld emptyWorld none (.symbol "foo".toList)
    "foo".toList rfl (by decide)
  ⟨by decide, by rw [h.2.2]⟩

/-- C5: for a symbol or string argument, `NcRequire0` returns the not-found sentinel exactly
when the symbol is not in the registry and no candidate directory, separator, name,
extension exists, over all directories of the search path and all extensions of the
table; in that case the registry keeps its entries and nothing is loaded. -/
theorem C5_not_found_iff (w : World) (requires0 : Option Frame) (r : Ref)
    (sym : List Char) (hsym : symbolOf r = some sym) :
    ((NcRequire0 w requires0 r).ret = .unbind ↔
        (NewtHasSlot (requires0.getD []) sym = false ∧
          ∀ dir ∈ searchPath w, ∀ e ∈ lib_exts w,
            w.fileExists (dir ++ [NewtGetFileSeparator] ++ printed r ++ e.ext) = false)) ∧
      ((NcRequire0 w requires0 r).ret = .unbind →
        (NcRequire0 w requires0 r).requires.getD [] = requires0.getD [] ∧
          loads (NcRequire0 w requires0 r).trace = [] ∧
          thrown (NcRequire0 w requires0 r).trace = []) := by
  by_cases hreg : NewtHasSlot (requires0.getD []) sym = true
  · rw [NcRequire0_registered w requires0 r sym hsym hreg]
    simp [hreg]
  · have hnew : NewtHasSlot (requires0.getD []) sym = false := by simpa using hreg
    obtain ⟨tr, htr, heq⟩ := NcRequire0_new w requires0 r sym hsym hnew
    have hnone := firstExisting_eq_none w (searchPath w) (printed r)
    rw [heq]
    rcases hfe : firstExisting w (searchPath w) (printed r) with _ | c
    · rw [hfe] at hnone
      refine ⟨⟨fun _ => ⟨hnew, hnone.mp rfl⟩, fun _ => rfl⟩, fun _ => ?_⟩
      simp [loads_probes tr htr, thrown_probes tr htr]
    · rw [hfe] at hnone
      simp only [found_ret]
      refine ⟨⟨fun h => by simp at h, fun h => ?_⟩, fun h => by simp at h⟩
      have := hnone.mpr h.2
      simp at this

theorem C5_not_found_iff_witness :
    (NcRequire0 emptyWorld none (.symbol "bar".toList)).ret = .unbind ∧
      loads (NcRequire0 emptyWorld none (.symbol "bar".toList)).trace = [] :=
  have h := C5_not_found_iff emptyWorld none (.symbol "bar".toList) "bar".toList rfl
  have hret : (NcRequire0 emptyWorld none (.symbol "bar".toList)).ret = .unbind :=
    h.1.mpr ⟨by decide, fun _ _ _ _ => rfl⟩
  ⟨hret, (h.2 hret).2.1⟩

/-- C6: `NsRequire` raises the file-not-found error, with its argument as the offending
value, exactly when `NcRequire0` returns the not-found sentinel on the same argument and
state; otherwise its outcome is that of `NcRequire0`, nothing more being raised. In
both cases it returns what `NcRequire0` returned and leaves the registry as that call
left it. -/
theorem C6_NsRequire_throws_iff_unbind (w : World) (requires0 : Option Frame) (r : Ref) :
    ((ErrCode.kNErrFileNotFound, r) ∈ thrown (NsRequire w requires0 r).trace ↔
        (NcRequire0 w requires0 r).ret = .unbind) ∧
      ((NcRequire0 w requires0 r).ret = .unbind →
        (NsRequire w requires0 r).trace =
          (NcRequire0 w requires0 r).trace ++ [Event.throw .kNErrFileNotFound r]) ∧
      ((NcRequire0 w requires0 r).ret ≠ .unbind →
        NsRequire w requires0 r = NcRequire0 w requires0 r) ∧
      (NsRequire w requires0 r).ret = (NcRequire0 w requires0 r).ret ∧
      (NsRequire w requires0 r).requires = (NcRequire0 w requires0 r).requires := by
  have hno := NcRequire0_thrown w requires0 r
  by_cases h : (NcRequire0 w requires0 r).ret = .unbind
  · simp [NsRequire, h, thrown_append, thrown]
  · simp only [NsRequire, h, if_false, iff_false, not_false_eq_true, true_implies, and_self,
      and_true, false_implies, true_and]
    exact ⟨fun hmem => hno _ hmem rfl, fun _ => trivial⟩

/-! ## Paths the scan copies unchanged -/

/-- One iteration that copies: the character is not the terminator, and it is not a
separator followed by a dot segment. -/
theorem run_cons_copy (c : Char) (rest dst : List Char) (h0 : c ≠ NUL)
    (h : ¬ (c = '/' ∧ peek rest 0 = '.' ∧
      (peek rest 1 = '/' ∨ peek rest 1 = NUL ∨ (peek rest 1 = '.' ∧ peek rest 2 = '/')))) :
    run (c :: rest) dst = run rest (c :: dst) := by
  simp only [run, List.length_cons]
  rw [scan]
  simp only [peek, List.getD_cons_zero, List.getD_cons_succ, List.drop_succ_cons, List.drop_zero,
    h0, if_false]
  simp only [peek] at h
  by_cases hc : c = '/'
  · by_cases hd : rest.getD 0 NUL = '.'
    · have h' : ¬ (rest.getD 1 NUL = '/' ∨ rest.getD 1 NUL = NUL ∨
          (rest.getD 1 NUL = '.' ∧ rest.getD 2 NUL = '/')) := fun hh => h ⟨hc, hd, hh⟩
      have h1 : ¬ (rest.getD 1 NUL = '/' ∨ rest.getD 1 NUL = NUL) :=
        fun hh => h' (hh.elim Or.inl (fun x => Or.inr (Or.inl x)))
      have h2 : ¬ (rest.getD 1 NUL = '.' ∧ rest.getD 2 NUL = '/') :=
        fun hh => h' (Or.inr (Or.inr hh))
      subst hc
      simp only [hd, and_self, if_true, h1, h2, if_false]
    · simp only [hd, and_false, if_false]
  · simp only [hc, false_and, if_false]

/-- The shapes of a dot segment after a separator, in a string without NUL. -/
theorem trigger_shape (rest : List Char) (hN : NUL ∉ rest)
    (h : peek rest 0 = '.' ∧
      (peek rest 1 = '/' ∨ peek rest 1 = NUL ∨ (peek rest 1 = '.' ∧ peek rest 2 = '/'))) :
    rest = ['.'] ∨ ['.', '/'] <+: rest ∨ ['.', '.', '/'] <+: rest := by
  have hdot : NUL ≠ '.' := by decide
  rcases rest with _ | ⟨x, _ | ⟨y, r⟩⟩
  · simp [peek, hdot] at h
  · simp [peek] at h
    left; simp [h]
  · simp only [List.mem_cons, not_or] at hN
    simp only [peek, List.getD_cons_zero, List.getD_cons_succ] at h
    obtain ⟨hx, hy | hy | ⟨hy, hz⟩⟩ := h
    · right; left
      subst hx; subst hy
      exact ⟨r, rfl⟩
    · exact absurd hy.symm hN.2.1
    · right; right
      rcases r with _ | ⟨z, r'⟩
      · simp at hz
        exact absurd hz (by decide)
      · simp only [List.getD_cons_zero] at hz
        subst hx; subst hy; subst hz
        exact ⟨r', rfl⟩

/-- A string without NUL, without a `/./` or `/../` segment and not ending in `/.` is
copied whole by the scan. -/
theorem run_copy_all (src : List Char) (hN : NUL ∉ src)
    (h1 : ¬ ['/', '.', '/'] <:+: src) (h2 : ¬ ['/', '.', '.', '/'] <:+: src)
    (h3 : ¬ ['/', '.'] <:+ src) :
    ∀ dst, run src dst = src.reverse ++ dst := by
  induction src with
  | nil => intro dst; simp [run_nil]
  | cons c rest ih =>
    intro dst
    simp only [List.mem_cons, not_or] at hN
    have ih' := ih hN.2 (fun h => h1 (List.infix_cons h)) (fun h => h2 (List.infix_cons h))
      (fun h => h3 (List.suffix_cons_iff.mpr (Or.inr h)))
    rw [run_cons_copy c rest dst (Ne.symm hN.1), ih']
    · simp
    · rintro ⟨hc, ht⟩
      subst hc
      rcases trigger_shape rest hN.2 ht with hr | hr | hr
      · subst hr
        exact h3 (List.suffix_refl _)
      · exact h1 (List.IsPrefix.isInfix (List.cons_prefix_cons.mpr ⟨rfl, hr⟩))
      · exact h2 (List.IsPrefix.isInfix (List.cons_prefix_cons.mpr ⟨rfl, hr⟩))

/-- C7 counterexample: the root path and a path ending in `/.` have no `/./` segment and no
`/../` segment, the second has no trailing separator, and the canonicalizer changes
both. -/
theorem C7_counterexample :
    (¬ "/./".toList <:+: "/".toList ∧ ¬ "/../".toList <:+: "/".toList ∧
        NewtRelToAbsPath "/".toList = [] ∧ NewtRelToAbsPath "/".toList ≠ "/".toList) ∧
      (¬ "/./".toList <:+: "/a/.".toList ∧ ¬ "/../".toList <:+: "/a/.".toList ∧
        ¬ "/".toList <:+ "/a/.".toList ∧
        NewtRelToAbsPath "/a/.".toList = "/a".toList ∧
        NewtRelToAbsPath "/a/.".toList ≠ "/a/.".toList) := by
  decide

/-- C7 (amended): a path without NUL that has no `/./` segment, no `/../` segment, does not
end in `/.` and does not end with the separator is returned unchanged by the
canonicalizer. -/
theorem C7_canonical_unchanged (p : List Char) (hN : NUL ∉ p)
    (h1 : ¬ ['/', '.', '/'] <:+: p) (h2 : ¬ ['/', '.', '.', '/'] <:+: p)
    (h3 : ¬ ['/', '.'] <:+ p) (h4 : ¬ ['/'] <:+ p) :
    NewtRelToAbsPath p = p := by
  rw [NewtRelToAbsPath_eq, run_copy_all p hN h1 h2 h3, List.append_nil, terminate_plain]
  · simp
  · rw [List.head?_reverse]
    intro hl
    apply h4
    obtain ⟨t, ht⟩ : ∃ t, p = t ++ ['/'] := by
      rcases List.eq_nil_or_concat p with hp | ⟨t, x, hp⟩
      · subst hp; simp at hl
      · subst hp
        simp at hl
        exact ⟨t, by rw [hl]; simp⟩
    exact ⟨t, ht.symm⟩

theorem C7_canonical_unchanged_witness :
    NewtRelToAbsPath "/usr/..x/.local/bin".toList = "/usr/..x/.local/bin".toList :=
  C7_canonical_unchanged "/usr/..x/.local/bin".toList (by decide) (by decide) (by decide)
    (by decide) (by decide)

/-! ## Invariants of the canonicalizer -/

theorem peek_drop (src : List Char) (n k : Nat) : peek (src.drop n) k = peek src (n + k) := by
  simp [peek, List.getD_eq_getElem?_getD, List.getElem?_drop]

/-- A property of the written part and the unread rest that every kind of iteration
keeps holds when the scan ends. -/
theorem scan_invariant (P : List Char → List Char → Prop)
    (hskip : ∀ src dst, P dst src → peek src 0 = '/' → peek src 1 = '.' →
      (peek src 2 = '/' ∨ peek src 2 = NUL) → P dst (src.drop 2))
    (hrew : ∀ src dst, P dst src → peek src 0 = '/' → peek src 1 = '.' →
      peek src 2 = '.' → peek src 3 = '/' → P (rewind '/' dst) (src.drop 3))
    (hcopy : ∀ src dst, P dst src → peek src 0 ≠ NUL →
      ¬ (peek src 0 = '/' ∧ peek src 1 = '.' ∧
        (peek src 2 = '/' ∨ peek src 2 = NUL ∨ (peek src 2 = '.' ∧ peek src 3 = '/'))) →
      P (peek src 0 :: dst) (src.drop 1)) :
    ∀ (fuel : Nat) (src dst : List Char), P dst src → ∃ src', P (scan '/' fuel src dst) src' := by
  intro fuel
  induction fuel with
  | zero => intro src dst h; exact ⟨src, by simpa [scan] using h⟩
  | succ n ih =>
    intro src dst h
    rw [scan]
    by_cases h0 : peek src 0 = NUL
    · exact ⟨src, by simpa [h0] using h⟩
    · simp only [h0, if_false]
      by_cases hsd : peek src 0 = '/' ∧ peek src 1 = '.'
      · simp only [hsd, and_self, if_true]
        by_cases h2 : peek src 2 = '/' ∨ peek src 2 = NUL
        · simp only [h2, if_true]
          exact ih _ _ (hskip src dst h hsd.1 hsd.2 h2)
        · simp only [h2, if_false]
          by_cases h3 : peek src 2 = '.' ∧ peek src 3 = '/'
          · simp only [h3, and_self, if_true]
            exact ih _ _ (hrew src dst h hsd.1 hsd.2 h3.1 h3.2)
          · simp only [h3, if_false]
            have hc : ¬ (peek src 0 = '/' ∧ peek src 1 = '.' ∧
                (peek src 2 = '/' ∨ peek src 2 = NUL ∨
                  (peek src 2 = '.' ∧ peek src 3 = '/'))) := by
              rintro ⟨-, -, hh⟩
              rcases hh with hh | hh | hh
              · exact h2 (Or.inl hh)
              · exact h2 (Or.inr hh)
              · exact h3 hh
            have key := ih _ _ (hcopy src dst h h0 hc)
            rw [hsd.1] at key
            exact key
      · simp only [hsd, if_false]
        refine ih _ _ (hcopy src dst h h0 ?_)
        rintro ⟨ha, hb, -⟩
        exact hsd ⟨ha, hb⟩

/-- The rewind leaves nothing, or what stood before a separator of the written part. -/
theorem rewind_spec (dst : List Char) :
    rewind '/' dst = [] ∨ '/' :: rewind '/' dst <:+ dst := by
  induction dst with
  | nil => left; rfl
  | cons c rest ih =>
    by_cases hc : c = '/'
    · right
      subst hc
      simp [rewind]
    · rcases ih with ih | ih
      · left; simp [rewind, hc, ih]
      · right
        simp only [rewind, hc, if_false]
        exact List.suffix_cons_iff.mpr (Or.inr ih)

theorem rewind_suffix (dst : List Char) : rewind '/' dst <:+ dst := by
  rcases rewind_spec dst with h | h
  · rw [h]; exact List.nil_suffix
  · exact (List.suffix_cons _ _).trans h

theorem peek2_isPrefix (src : List Char) (a b : Char) (ha : a ≠ NUL) (hb : b ≠ NUL)
    (h0 : peek src 0 = a) (h1 : peek src 1 = b) : [a, b] <+: src := by
  rcases src with _ | ⟨x, _ | ⟨y, r⟩⟩
  · exact absurd h0.symm ha
  · exact absurd h1.symm hb
  · simp only [peek, List.getD_cons_zero, List.getD_cons_succ] at h0 h1
    subst h0; subst h1
    exact ⟨r, rfl⟩

theorem terminate_spec (d : List Char) :
    ∃ d', d' <:+ d ∧ terminate '/' d = d'.reverse := by
  cases d with
  | nil => exact ⟨[], List.suffix_refl _, rfl⟩
  | cons c rest =>
    by_cases hc : c = '/'
    · exact ⟨rest, List.suffix_cons _ _, by simp [terminate, hc]⟩
    · exact ⟨c :: rest, List.suffix_refl _, by simp [terminate, hc]⟩

theorem singleSep_keeps_skip (src dst : List Char) (h : SingleSep dst src)
    (h0 : peek src 0 = '/') : SingleSep dst (src.drop 2) :=
  ⟨h.1, fun hp => absurd h0 (h.2.1 hp),
    fun hi => h.2.2 (hi.trans (List.drop_suffix 2 src).isInfix)⟩

theorem singleSep_keeps_rewind (src dst : List Char) (h : SingleSep dst src) :
    SingleSep (rewind '/' dst) (src.drop 3) := by
  refine ⟨fun hi => h.1 (hi.trans (rewind_suffix dst).isInfix), fun hp => ?_,
    fun hi => h.2.2 (hi.trans (List.drop_suffix 3 src).isInfix)⟩
  rcases rewind_spec dst with e | e
  · rw [e] at hp; simp at hp
  · have h2 : ['/', '/'] <+: '/' :: rewind '/' dst := List.cons_prefix_cons.mpr ⟨rfl, hp⟩
    exact absurd (h2.isInfix.trans e.isInfix) h.1

theorem singleSep_keeps_copy (src dst : List Char) (h : SingleSep dst src) :
    SingleSep (peek src 0 :: dst) (src.drop 1) := by
  have hs : ('/' : Char) ≠ NUL := by decide
  refine ⟨fun hi => ?_, fun hp => ?_,
    fun hi => h.2.2 (hi.trans (List.drop_suffix 1 src).isInfix)⟩
  · rcases List.infix_cons_iff.mp hi with hp | hp
    · obtain ⟨hc, hp'⟩ := List.cons_prefix_cons.mp hp
      exact h.2.1 hp' hc.symm
    · exact h.1 hp
  · rw [peek_drop]
    intro h1
    have hc : peek src 0 = '/' := (List.cons_prefix_cons.mp hp).1.symm
    exact h.2.2 (peek2_isPrefix src '/' '/' hs hs hc h1).isInfix

/-- The scan writes no two adjacent separators when it reads none. -/
theorem scan_singleSep (s : List Char) (h : ¬ ['/', '/'] <:+: s) (fuel : Nat) :
    ¬ ['/', '/'] <:+: scan '/' fuel s [] := by
  obtain ⟨src', hP⟩ := scan_invariant SingleSep
    (fun src dst hP h0 _ _ => singleSep_keeps_skip src dst hP h0)
    (fun src dst hP _ _ _ _ => singleSep_keeps_rewind src dst hP)
    (fun src dst hP _ _ => singleSep_keeps_copy src dst hP)
    fuel s [] ⟨by decide, fun hp => (by simp at hp), h⟩
  exact hP.1

/-- C9 counterexample: the canonicalizer strips one separator only, so an input ending in
two adjacent separators keeps one of them and the result is not the root path. -/
theorem C9_counterexample :
    NewtRelToAbsPath "/a//".toList = "/a/".toList ∧
      (NewtRelToAbsPath "/a//".toList).getLast? = some NewtGetFileSeparator ∧
      NewtRelToAbsPath "/a//".toList ≠ "/".toList := by
  decide

/-- C9 (amended): for every input string without two adjacent separators, the result of the
canonicalizer does not end with the separator. -/
theorem C9_no_trailing_separator (s : List Char) (h : ¬ ['/', '/'] <:+: s) :
    (NewtRelToAbsPath s).getLast? ≠ some NewtGetFileSeparator := by
  have hd := scan_singleSep s h s.length
  have he : NewtRelToAbsPath s = terminate '/' (scan '/' s.length s []) := rfl
  rw [he]
  cases hsc : scan '/' s.length s [] with
  | nil => simp [terminate]
  | cons c rest =>
    rw [hsc] at hd
    by_cases hc : c = '/'
    · subst hc
      simp only [terminate, if_true, List.getLast?_reverse]
      intro hh
      rcases rest with _ | ⟨x, t⟩
      · simp at hh
      · simp only [List.head?_cons, Option.some.injEq] at hh
        subst hh
        exact hd (List.IsPrefix.isInfix ⟨t, rfl⟩)
    · simp only [terminate, hc, if_false, List.getLast?_reverse, List.head?_cons]
      intro hh
      exact hc (Option.some.inj hh)

theorem C9_no_trailing_separator_witness :
    (NewtRelToAbsPath "/a/./b/../".toList).getLast? ≠ some NewtGetFileSeparator :=
  C9_no_trailing_separator "/a/./b/../".toList (by decide)

/-- C10: for a string p without NUL in which no separator is followed by a dot, the
canonicalizer maps p followed by one separator to p. -/
theorem C10_strips_one_separator (p : List Char) (hN : NUL ∉ p)
    (h : ¬ ['/', '.'] <:+: p) :
    NewtRelToAbsPath (p ++ [NewtGetFileSeparator]) = p := by
  have hs : NUL ≠ '/' := by decide
  have hN' : NUL ∉ p ++ ['/'] := by simp [hN, hs]
  have key : ∀ l : List Char, ['/', '.'] <:+: l → ¬ l <:+: p :=
    fun l hl hp => h (hl.trans hp)
  have h1 : ¬ ['/', '.', '/'] <:+: p ++ ['/'] := by
    intro hi
    rcases List.infix_concat_iff.mp hi with hsuf | hin
    · rcases List.suffix_concat_iff.mp hsuf with he | ⟨t, ht, hts⟩
      · cases he
      · have : t = ['/', '.'] := List.append_cancel_right (ht.symm.trans rfl)
        subst this
        exact h hts.isInfix
    · exact key _ (List.IsPrefix.isInfix ⟨['/'], rfl⟩) hin
  have h2 : ¬ ['/', '.', '.', '/'] <:+: p ++ ['/'] := by
    intro hi
    rcases List.infix_concat_iff.mp hi with hsuf | hin
    · rcases List.suffix_concat_iff.mp hsuf with he | ⟨t, ht, hts⟩
      · cases he
      · have : t = ['/', '.', '.'] := List.append_cancel_right (ht.symm.trans rfl)
        subst this
        exact key _ (List.IsPrefix.isInfix ⟨['.'], rfl⟩) hts.isInfix
    · exact key _ (List.IsPrefix.isInfix ⟨['.', '/'], rfl⟩) hin
  have h3 : ¬ ['/', '.'] <:+ p ++ ['/'] := by
    intro hsuf
    rcases List.suffix_concat_iff.mp hsuf with he | ⟨t, ht, -⟩
    · cases he
    · have : ['/'] ++ ['.'] = t ++ ['/'] := ht
      have := (List.append_inj' this rfl).2
      simp at this
  show NewtRelToAbsPath (p ++ ['/']) = p
  rw [NewtRelToAbsPath_eq, run_copy_all (p ++ ['/']) hN' h1 h2 h3]
  simp [terminate]

theorem C10_strips_one_separator_witness :
    NewtRelToAbsPath ("/a/b".toList ++ [NewtGetFileSeparator]) = "/a/b".toList :=
  C10_strips_one_separator "/a/b".toList (by decide) (by decide)

theorem noDotSegment_keeps_skip (src dst : List Char) (h : NoDotSegment dst src)
    (h0 : peek src 0 = '/') (h2 : peek src 2 = '/' ∨ peek src 2 = NUL) :
    NoDotSegment dst (src.drop 2) := by
  obtain ⟨hn, -, g2, g3⟩ := h
  have hne : peek src 2 ≠ '.' := by
    rcases h2 with e | e <;> rw [e] <;> decide
  refine ⟨hn, fun _ => ?_, fun hp => absurd h0 (g2 hp).1, fun hp => absurd h0 (g3 hp)⟩
  simp only [peek_drop]
  exact ⟨fun hh => hne hh.1, fun hh => hne hh.1⟩

theorem noDotSegment_keeps_rewind (src dst : List Char) (h : NoDotSegment dst src)
    (h3 : peek src 3 = '/') : NoDotSegment (rewind '/' dst) (src.drop 3) := by
  obtain ⟨⟨n1, n2⟩, -, -, -⟩ := h
  have hne : peek src 3 ≠ '.' := by rw [h3]; decide
  have hsuf := (rewind_suffix dst).isInfix
  refine ⟨⟨fun hi => n1 (hi.trans hsuf), fun hi => n2 (hi.trans hsuf)⟩, fun _ => ?_,
    fun hp => ?_, fun hp => ?_⟩
  · simp only [peek_drop]
    exact ⟨fun hh => hne hh.1, fun hh => hne hh.1⟩
  · rcases rewind_spec dst with e | e
    · rw [e] at hp; simp at hp
    · have h2 : ['/', '.', '/'] <+: '/' :: rewind '/' dst :=
        List.cons_prefix_cons.mpr ⟨rfl, hp⟩
      exact absurd (h2.isInfix.trans e.isInfix) n1
  · rcases rewind_spec dst with e | e
    · rw [e] at hp; simp at hp
    · have h2 : ['/', '.', '.', '/'] <+: '/' :: rewind '/' dst :=
        List.cons_prefix_cons.mpr ⟨rfl, hp⟩
      exact absurd (h2.isInfix.trans e.isInfix) n2

theorem noDotSegment_keeps_copy (src dst : List Char) (h : NoDotSegment dst src)
    (hc : ¬ (peek src 0 = '/' ∧ peek src 1 = '.' ∧
      (peek src 2 = '/' ∨ peek src 2 = NUL ∨ (peek src 2 = '.' ∧ peek src 3 = '/')))) :
    NoDotSegment (peek src 0 :: dst) (src.drop 1) := by
  obtain ⟨⟨n1, n2⟩, g1, g2, g3⟩ := h
  refine ⟨⟨fun hi => ?_, fun hi => ?_⟩, fun hp => ?_, fun hp => ?_, fun hp => ?_⟩
  · rcases List.infix_cons_iff.mp hi with hp | hp
    · obtain ⟨he, hp'⟩ := List.cons_prefix_cons.mp hp
      exact (g2 hp').1 he.symm
    · exact n1 hp
  · rcases List.infix_cons_iff.mp hi with hp | hp
    · obtain ⟨he, hp'⟩ := List.cons_prefix_cons.mp hp
      exact g3 hp' he.symm
    · exact n2 hp
  · have he : peek src 0 = '/' := (List.cons_prefix_cons.mp hp).1.symm
    simp only [peek_drop]
    exact ⟨fun hh => hc ⟨he, hh.1, Or.inl hh.2⟩,
      fun hh => hc ⟨he, hh.1, Or.inr (Or.inr hh.2)⟩⟩
  · obtain ⟨he, hp'⟩ := List.cons_prefix_cons.mp hp
    have hg := g1 hp'
    simp only [peek_drop]
    exact ⟨fun hh => hg.1 ⟨he.symm, hh⟩, fun hh => hg.2 ⟨he.symm, hh.1, hh.2⟩⟩
  · obtain ⟨he, hp'⟩ := List.cons_prefix_cons.mp hp
    have hg := g2 hp'
    simp only [peek_drop]
    exact fun hh => hg.2 ⟨he.symm, hh⟩

/-- The scan writes no `/./` and no `/../` segment, whatever it reads. -/
theorem scan_noDotSegment (s : List Char) (fuel : Nat) :
    ¬ ['/', '.', '/'] <:+: scan '/' fuel s [] ∧
      ¬ ['/', '.', '.', '/'] <:+: scan '/' fuel s [] := by
  obtain ⟨src', hP⟩ := scan_invariant NoDotSegment
    (fun src dst hP h0 _ h2 => noDotSegment_keeps_skip src dst hP h0 h2)
    (fun src dst hP _ _ _ h3 => noDotSegment_keeps_rewind src dst hP h3)
    (fun src dst hP _ hc => noDotSegment_keeps_copy src dst hP hc)
    fuel s [] ⟨⟨by decide, by decide⟩, fun hp => (by simp at hp), fun hp => (by simp at hp),
      fun hp => (by simp at hp)⟩
  exact hP.1

/-- C8: for every input string, the result of the canonicalizer contains neither
separator, dot, separator nor separator, dot, dot, separator as a contiguous substring. -/
theorem C8_no_dot_segment_survives (s : List Char) :
    ¬ [NewtGetFileSeparator, '.', NewtGetFileSeparator] <:+: NewtRelToAbsPath s ∧
      ¬ [NewtGetFileSeparator, '.', '.', NewtGetFileSeparator] <:+: NewtRelToAbsPath s := by
  have he : NewtRelToAbsPath s = terminate '/' (scan '/' s.length s []) := rfl
  obtain ⟨d', hsuf, hterm⟩ := terminate_spec (scan '/' s.length s [])
  obtain ⟨n1, n2⟩ := scan_noDotSegment s s.length
  have r1 : ['/', '.', '/'] = (['/', '.', '/'] : List Char).reverse := rfl
  have r2 : ['/', '.', '.', '/'] = (['/', '.', '.', '/'] : List Char).reverse := rfl
  show ¬ ['/', '.', '/'] <:+: NewtRelToAbsPath s ∧ ¬ ['/', '.', '.', '/'] <:+: NewtRelToAbsPath s
  rw [he, hterm]
  constructor
  · rw [r1, List.reverse_infix]
    exact fun hi => n1 (hi.trans hsuf.isInfix)
  · rw [r2, List.reverse_infix]
    exact fun hi => n2 (hi.trans hsuf.isInfix)

/-! ## Memory blocks -/

theorem cstr_of_not_mem (s : List Char) (h : NUL ∉ s) : cstr s = s := by
  unfold cstr
  rw [List.takeWhile_eq_self_iff]
  intro c hc
  have : c ≠ NUL := fun e => h (e ▸ hc)
  simpa using this

theorem strlen_of_not_mem (s : List Char) (h : NUL ∉ s) : strlen s = s.length := by
  rw [strlen, cstr_of_not_mem s h]

theorem storeAll_eq (cs : List Char) : ∀ (b : List Char) (off : Nat),
    off + cs.length ≤ b.length →
      storeAll b off cs = some (b.take off ++ cs ++ b.drop (off + cs.length)) := by
  induction cs with
  | nil => intro b off _; simp [storeAll]
  | cons c cs ih =>
    intro b off h
    simp only [List.length_cons] at h
    have hlt : off < b.length := by omega
    have hlen : (b.set off c).length = b.length := List.length_set _ _ _
    simp only [storeAll, store, hlt, if_true, Option.some_bind]
    rw [ih (b.set off c) (off + 1) (by rw [hlen]; omega)]
    congr 1
    have hl : (b.take off).length = off := by
      rw [List.length_take]; omega
    have hs : b.set off c = b.take off ++ c :: b.drop (off + 1) := by
      rw [List.set_eq_take_append_cons_drop, if_pos hlt]
    have e1 : (b.set off c).take (off + 1) = b.take off ++ [c] := by
      rw [hs, List.take_append_eq_append_take, hl]
      simp
    have e2 : (b.set off c).drop (off + 1 + cs.length) = b.drop (off + (cs.length + 1)) := by
      rw [List.drop_set_of_lt _ _ (by omega)]
      congr 1
      omega
    rw [e1, e2]
    simp [List.length_cons]

theorem load_cstring (l rest : List Char) (h : NUL ∉ l) :
    load (l ++ NUL :: rest) = some l := by
  induction l with
  | nil => simp [load]
  | cons c t ih =>
    simp only [List.mem_cons, not_or] at h
    simp [load, Ne.symm h.1, ih h.2]

/-! ## Joining -/

/-- The join in closed form, for C strings whose sizes fit, when the allocation
succeeds. -/
theorem NewtJoinPath_eq (p : Platform) (s1 s2 : List Char) (sep : Char)
    (h1 : NUL ∉ s1) (h2 : NUL ∉ s2) (hsep : sep ≠ NUL)
    (hfit : s1.length + s2.length + 2 < 2 ^ 32)
    (hm : p.mallocOk (s1.length + s2.length + 2) = true) :
    NewtJoinPath p s1 s2 sep = some (s1 ++ [sep] ++ s2) := by
  have e1 : strlen s1 % 2 ^ 32 = s1.length := by
    rw [strlen_of_not_mem s1 h1]; exact Nat.mod_eq_of_lt (by omega)
  have e2 : strlen s2 % 2 ^ 32 = s2.length := by
    rw [strlen_of_not_mem s2 h2]; exact Nat.mod_eq_of_lt (by omega)
  have e3 : (s1.length + s2.length + 2) % 2 ^ 32 = s1.length + s2.length + 2 :=
    Nat.mod_eq_of_lt hfit
  have e4 : (s2.length + 1) % 2 ^ 32 = s2.length + 1 := Nat.mod_eq_of_lt (by omega)
  obtain ⟨b0, hb0, hlen0⟩ : ∃ b0, malloc p (s1.length + s2.length + 2) = some b0 ∧
      b0.length = s1.length + s2.length + 2 := by
    refine ⟨(List.range (s1.length + s2.length + 2)).map
      (p.uninit (s1.length + s2.length + 2)), ?_, by simp⟩
    simp only [malloc, hm, if_true]
  -- strcpy(path, s1)
  have hb1 : strcpy b0 0 s1 = some (s1 ++ NUL :: b0.drop (s1.length + 1)) := by
    rw [strcpy, cstr_of_not_mem s1 h1, storeAll_eq _ _ _ (by simp; omega)]
    simp
  -- path[len1] = sep
  have hb2 : store (s1 ++ NUL :: b0.drop (s1.length + 1)) s1.length sep =
      some (s1 ++ sep :: b0.drop (s1.length + 1)) := by
    have hlt : s1.length < (s1 ++ NUL :: b0.drop (s1.length + 1)).length := by simp
    simp only [store, hlt, if_true]
    simp
  -- strncpy(path + len1 + 1, s2, len2 + 1)
  have hb3 : strncpy (s1 ++ sep :: b0.drop (s1.length + 1)) (s1.length + 1) s2
      (s2.length + 1) = some (s1 ++ [sep] ++ s2 ++ NUL :: []) := by
    have hd : (b0.drop (s1.length + 1)).length = s2.length + 1 := by
      rw [List.length_drop]; omega
    rw [strncpy, strlen_of_not_mem s2 h2, cstr_of_not_mem s2 h2,
      storeAll_eq _ _ _ (by simp [hd]; omega)]
    have ht : List.take (s1.length + 1) (s1 ++ sep :: b0.drop (s1.length + 1)) =
        s1 ++ [sep] := by
      rw [List.take_append_eq_append_take]
      simp
    have hdr : List.drop (s1.length + 1 +
        (List.take (s2.length + 1) s2 ++ List.replicate (s2.length + 1 - s2.length) NUL).length)
        (s1 ++ sep :: b0.drop (s1.length + 1)) = [] := by
      apply List.drop_eq_nil_of_le
      simp [hd]
      omega
    rw [ht, hdr]
    simp [List.take_of_length_le]
  have hload : load (s1 ++ [sep] ++ s2 ++ NUL :: []) = some (s1 ++ [sep] ++ s2) :=
    load_cstring _ _ (by simp [h1, h2, Ne.symm hsep])
  simp only [NewtJoinPath, e1, e2, e3, e4, hb0, Option.some_bind, hb1, hb2, hb3, hload]

/-- C14: for all C strings s1, s2 and every separator character (other than NUL) whose
sizes fit the platform, and when the allocation of exactly len(s1) + len(s2) + 2 bytes
succeeds, `NewtJoinPath` returns exactly s1, separator, s2, a string of length
len(s1) + len(s2) + 1; nothing is canonicalized, so a directory that ends in the separator
gives a doubled separator. -/
theorem C14_join_path (p : Platform) (s1 s2 : List Char) (sep : Char)
    (h1 : NUL ∉ s1) (h2 : NUL ∉ s2) (hsep : sep ≠ NUL)
    (hfit : s1.length + s2.length + 2 < 2 ^ 32)
    (hm : p.mallocOk (s1.length + s2.length + 2) = true) :
    NewtJoinPath p s1 s2 sep = some (s1 ++ [sep] ++ s2) ∧
      (s1 ++ [sep] ++ s2).length = s1.length + s2.length + 1 ∧
      (∀ d, s1 = d ++ [sep] → NewtJoinPath p s1 s2 sep = some (d ++ [sep, sep] ++ s2)) := by
  have key := NewtJoinPath_eq p s1 s2 sep h1 h2 hsep hfit hm
  refine ⟨key, by simp; omega, ?_⟩
  intro d hd
  rw [key, hd]
  simp

theorem C14_join_path_witness :
    NewtJoinPath ⟨none, fun _ => none, none, fun n => n == 9, fun _ _ => 'x'⟩
      "/usr".toList "bin".toList '/' = some "/usr/bin".toList :=
  (C14_join_path ⟨none, fun _ => none, none, fun n => n == 9, fun _ _ => 'x'⟩
    "/usr".toList "bin".toList '/' (by decide) (by decide) (by decide) (by decide)
    (by decide)).1

/-! ## Base name and directory name -/

theorem baseLoop_succ (sep : Char) (s : List Char) (n : Nat) :
    baseLoop sep s (n + 1) = if peek s n = sep then n + 1 else baseLoop sep s n := by
  simp [baseLoop, List.range_succ, List.foldl_append]

theorem baseLoop_zero (sep : Char) (s : List Char) : baseLoop sep s 0 = 0 := rfl

theorem peek_of_lt (s : List Char) (i : Nat) (h : i < s.length) : peek s i = s[i] := by
  simp [peek, List.getD_eq_getElem?_getD, List.getElem?_eq_getElem h]

theorem peek_append_cons (pre post : List Char) (c : Char) :
    peek (pre ++ c :: post) pre.length = c := by
  simp only [peek, List.getD_eq_getElem?_getD]
  rw [List.getElem?_append_right (Nat.le_refl _), Nat.sub_self]
  simp

/-- Without a separator among the first `n` characters the loop leaves `base` at 0. -/
theorem baseLoop_no_sep (sep : Char) (s : List Char) (h : sep ∉ s) :
    ∀ n, n ≤ s.length → baseLoop sep s n = 0 := by
  intro n
  induction n with
  | zero => intro _; rfl
  | succ n ih =>
    intro hn
    rw [baseLoop_succ, ih (by omega)]
    have hne : peek s n ≠ sep := by
      rw [peek_of_lt s n (by omega)]
      intro e
      exact h (e ▸ List.getElem_mem _)
    simp [hne]

/-- After the last separator the loop leaves `base` just behind it. -/
theorem baseLoop_last_sep (sep : Char) (pre post : List Char) (h : sep ∉ post) :
    ∀ k, k ≤ post.length →
      baseLoop sep (pre ++ sep :: post) (pre.length + 1 + k) = pre.length + 1 := by
  intro k
  induction k with
  | zero =>
    intro _
    rw [Nat.add_zero, baseLoop_succ]
    simp [peek_append_cons]
  | succ k ih =>
    intro hk
    rw [← Nat.add_assoc, baseLoop_succ, ih (by omega)]
    have hne : peek (pre ++ sep :: post) (pre.length + 1 + k) ≠ sep := by
      have hlt : k < post.length := by omega
      have : peek (pre ++ sep :: post) (pre.length + 1 + k) = post[k] := by
        simp only [peek, List.getD_eq_getElem?_getD]
        rw [List.getElem?_append_right (by omega)]
        have e : pre.length + 1 + k - pre.length = k + 1 := by omega
        rw [e, List.getElem?_cons_succ, List.getElem?_eq_getElem hlt]
        rfl
      rw [this]
      intro e
      exact h (e ▸ List.getElem_mem _)
    simp [hne]

/-- A string that holds the separator splits at its last separator. -/
theorem split_last_sep (sep : Char) (s : List Char) (h : sep ∈ s) :
    ∃ pre post, s = pre ++ sep :: post ∧ sep ∉ post := by
  have hr : sep ∈ s.reverse := List.mem_reverse.mpr h
  obtain ⟨as, bs, hs, hna⟩ := List.eq_append_cons_of_mem hr
  refine ⟨bs.reverse, as.reverse, ?_, by simpa using hna⟩
  have := congrArg List.reverse hs
  simpa using this

theorem NewtBaseName_no_sep (s : List Char) (hs : s ≠ []) (h : '/' ∉ s) :
    NewtBaseName s s.length = some 0 := by
  have hpos : 0 < s.length := List.length_pos.mpr hs
  simp [NewtBaseName, NewtGetFileSeparator, baseLoop_no_sep '/' s h s.length (Nat.le_refl _), hpos]

theorem NewtBaseName_split (pre post : List Char) (h : '/' ∉ post) :
    NewtBaseName (pre ++ '/' :: post) (pre ++ '/' :: post).length =
      if post = [] then none else some (pre.length + 1) := by
  have hl : (pre ++ '/' :: post).length = pre.length + 1 + post.length := by
    simp; omega
  have hb := baseLoop_last_sep '/' pre post h post.length (Nat.le_refl _)
  rw [← hl] at hb
  simp only [NewtBaseName, NewtGetFileSeparator, hb]
  by_cases hp : post = []
  · subst hp; simp
  · have : 0 < post.length := List.length_pos.mpr hp
    simp [hp]

theorem NewtBaseName_trailing_sep (s : List Char) (hlast : s.getLast? = some '/') :
    NewtBaseName s s.length = none := by
  obtain ⟨pre, hpre⟩ : ∃ pre, s = pre ++ ['/'] := by
    rcases List.eq_nil_or_concat s with h | ⟨t, x, h⟩
    · subst h; simp at hlast
    · subst h
      simp at hlast
      exact ⟨t, by rw [hlast]; simp⟩
  subst hpre
  have := NewtBaseName_split pre [] (by simp)
  simpa using this

/-- C15 counterexample: the empty string contains no separator, and `NewtBaseName`
returns NULL for it, not the whole string. -/
theorem C15_counterexample :
    NewtGetFileSeparator ∉ ([] : List Char) ∧ NewtBaseName [] 0 = none ∧
      NewtBaseName [] 0 ≠ some 0 := by
  decide

/-- C15 (amended): for every non-empty string with its length, `NewtBaseName` returns the
whole string (offset 0) if the string contains no separator, NULL if its final
character is the separator, and otherwise the rest of the string after its last
separator, which is not empty and contains no separator. -/
theorem C15_base_name (s : List Char) (hs : s ≠ []) :
    (NewtGetFileSeparator ∉ s → NewtBaseName s s.length = some 0) ∧
      (s.getLast? = some NewtGetFileSeparator → NewtBaseName s s.length = none) ∧
      (NewtGetFileSeparator ∈ s → s.getLast? ≠ some NewtGetFileSeparator →
        ∃ k, NewtBaseName s s.length = some k ∧ 0 < k ∧
          peek s (k - 1) = NewtGetFileSeparator ∧
          s.drop k ≠ [] ∧ NewtGetFileSeparator ∉ s.drop k) := by
  show ('/' ∉ s → _) ∧ (s.getLast? = some '/' → _) ∧ ('/' ∈ s → s.getLast? ≠ some '/' →
    ∃ k, _ ∧ _ ∧ peek s (k - 1) = '/' ∧ _ ∧ '/' ∉ s.drop k)
  refine ⟨NewtBaseName_no_sep s hs, fun hlast => ?_, fun hmem hlast => ?_⟩
  · exact NewtBaseName_trailing_sep s hlast
  · obtain ⟨pre, post, hsp, hno⟩ := split_last_sep '/' s hmem
    subst hsp
    have hpost : post ≠ [] := by
      intro e
      subst e
      simp at hlast
    refine ⟨pre.length + 1, ?_, by omega, ?_, ?_, ?_⟩
    · rw [NewtBaseName_split pre post hno, if_neg hpost]
    · simp [peek_append_cons]
    · simpa using hpost
    · simpa using hno

theorem C15_base_name_witness :
    ∃ k, NewtBaseName "/usr/bin".toList "/usr/bin".toList.length = some k ∧ 0 < k ∧
      peek "/usr/bin".toList (k - 1) = NewtGetFileSeparator ∧
      "/usr/bin".toList.drop k ≠ [] ∧ NewtGetFileSeparator ∉ "/usr/bin".toList.drop k :=
  (C15_base_name "/usr/bin".toList (by decide)).2.2 (by decide) (by decide)

theorem NsDirName_split (w : World) (pre post : List Char) (h : '/' ∉ post)
    (hpost : post ≠ []) :
    NsDirName w (.string (pre ++ '/' :: post)) =
      (.string (if pre = [] then ['/'] else pre), []) := by
  have hb := NewtBaseName_split pre post h
  rw [if_neg hpost] at hb
  simp only [NsDirName, NewtStringLength, NewtMakeString2, hb, NewtGetFileSeparator]
  by_cases hp : pre = []
  · subst hp
    simp
  · have hlen : pre.length ≠ 0 := fun e => hp (List.length_eq_zero.mp e)
    have hlen' : 0 < pre.length := Nat.pos_of_ne_zero hlen
    simp [hp, hlen, hlen', peek_append_cons]

/-- C16: for every path that does not end with the separator, `NsDirName` returns `.` if
the path contains no separator, the root `/` if its last separator is at index 0, and
otherwise the part of the path strictly before its last separator. -/
theorem C16_dir_name (w : World) (s : List Char)
    (hlast : s.getLast? ≠ some NewtGetFileSeparator) :
    (NewtGetFileSeparator ∉ s → NsDirName w (.string s) = (.string ".".toList, [])) ∧
      (∀ post, s = NewtGetFileSeparator :: post → NewtGetFileSeparator ∉ post →
        NsDirName w (.string s) = (.string "/".toList, [])) ∧
      (∀ pre post, s = pre ++ NewtGetFileSeparator :: post → pre ≠ [] →
        NewtGetFileSeparator ∉ post → NsDirName w (.string s) = (.string pre, [])) := by
  have hpost : ∀ pre post, s = pre ++ '/' :: post → post ≠ [] := by
    intro pre post hs e
    subst e; subst hs
    simp [NewtGetFileSeparator] at hlast
  refine ⟨fun hno => ?_, fun post hs hno => ?_, fun pre post hs hpre hno => ?_⟩
  · by_cases hs : s = []
    · subst hs
      rfl
    · have hb := NewtBaseName_no_sep s hs hno
      simp [NsDirName, NewtStringLength, hb]
  · have := NsDirName_split w [] post hno (hpost [] post hs)
    rw [hs]
    simpa using this
  · have := NsDirName_split w pre post hno (hpost pre post hs)
    rw [hs]
    rw [if_neg hpre] at this
    exact this

theorem C16_dir_name_witness :
    NsDirName demoWorld (.string "/usr/bin".toList) = (.string "/usr".toList, []) ∧
      NsDirName demoWorld (.string "bin".toList) = (.string ".".toList, []) :=
  ⟨(C16_dir_name demoWorld "/usr/bin".toList (by decide)).2.2 "/usr".toList "bin".toList
      rfl (by decide) (by decide),
   (C16_dir_name demoWorld "bin".toList (by decide)).1 (by decide)⟩

/-- C17 counterexample: for `/usr/` the directory name is `.`, not `/usr`; for the root
`/` it is `.`, not `/`; so `.` is returned for paths that hold a separator. -/
theorem C17_counterexample :
    NsDirName demoWorld (.string "/usr/".toList) = (.string ".".toList, []) ∧
      NsDirName demoWorld (.string "/usr/".toList) ≠ (.string "/usr".toList, []) ∧
      NsDirName demoWorld (.string "/".toList) = (.string ".".toList, []) ∧
      NsDirName demoWorld (.string "/".toList) ≠ (.string "/".toList, []) ∧
      NewtGetFileSeparator ∈ "/usr/".toList := by
  decide

/-- C17 (amended): for every path whose final character is the separator, `NsDirName`
returns `.`, because `NewtBaseName` returns NULL for such a path. -/
theorem C17_dir_name_trailing_sep (w : World) (s : List Char)
    (hlast : s.getLast? = some NewtGetFileSeparator) :
    NewtBaseName s s.length = none ∧ NsDirName w (.string s) = (.string ".".toList, []) := by
  have hb := NewtBaseName_trailing_sep s hlast
  exact ⟨hb, by simp [NsDirName, NewtStringLength, hb]⟩

theorem C17_dir_name_trailing_sep_witness :
    NsDirName demoWorld (.string "/usr/".toList) = (.string ".".toList, []) :=
  (C17_dir_name_trailing_sep demoWorld "/usr/".toList (by decide)).2

/-! ## The dynamic library loader -/

/-- C18 counterexample: a library that opens but has no entry point and a library that
cannot be opened give the same outcome: `NewtDylibInstall` returns NULL for both, and
`NsLoadLib` returns the same value and raises the same error for both. -/
theorem C18_counterexample :
    (NewtDylibInstall dylibWorld "/lib/empty.so".toList).1 = none ∧
      (NewtDylibInstall dylibWorld "/lib/bad.so".toList).1 = none ∧
      (NsLoadLib dylibWorld (.string "/lib/empty.so".toList)).1 =
        (NsLoadLib dylibWorld (.string "/lib/bad.so".toList)).1 ∧
      (thrown (NsLoadLib dylibWorld (.string "/lib/empty.so".toList)).2).map Prod.fst =
        [ErrCode.kNErrDylibNotOpen] ∧
      (thrown (NsLoadLib dylibWorld (.string "/lib/bad.so".toList)).2).map Prod.fst =
        [ErrCode.kNErrDylibNotOpen] := by
  decide

/-- C18 (amended): with the platform open and the symbol lookup as oracles,
`NewtDylibInstall` does this: if the open fails it returns NULL and neither closes nor
invokes anything; if the open succeeds and `newt_install` is absent it closes the
handle, invokes nothing and returns NULL, the same outcome as for a failed open; if
the entry point is present it invokes it once and returns the handle without closing
it. On NULL, `NsLoadLib` raises the one error kNErrDylibNotOpen in both failure cases. -/
theorem C18_dylib_install (w : World) (fname : List Char) :
    (w.dlopenLib fname = none →
        NewtDylibInstall w fname = (none, [Event.dlopen fname])) ∧
      (∀ lib, w.dlopenLib fname = some lib → w.dlsymInstall lib = false →
        NewtDylibInstall w fname = (none, [Event.dlopen fname, Event.dlclose lib])) ∧
      (∀ lib, w.dlopenLib fname = some lib → w.dlsymInstall lib = true →
        NewtDylibInstall w fname = (some lib, [Event.dlopen fname, Event.install lib])) ∧
      ((NewtDylibInstall w fname).1 = none →
        (NsLoadLib w (.string fname)).1 = w.throwRet ∧
          thrown (NsLoadLib w (.string fname)).2 =
            [(ErrCode.kNErrDylibNotOpen, .string fname)]) := by
  refine ⟨fun h => by simp [NewtDylibInstall, h], fun lib h hs => by simp [NewtDylibInstall, h, hs],
    fun lib h hs => by simp [NewtDylibInstall, h, hs], fun hnone => ?_⟩
  unfold NsLoadLib
  rcases hd : NewtDylibInstall w fname with ⟨lib?, ev⟩
  rw [hd] at hnone
  simp only at hnone
  subst hnone
  have hev : thrown ev = [] := by
    unfold NewtDylibInstall at hd
    rcases ho : w.dlopenLib fname with _ | lib
    · simp [ho] at hd
      rw [← hd]; rfl
    · by_cases hs : w.dlsymInstall lib = true
      · simp [ho, hs] at hd
      · simp [ho, hs] at hd
        rw [← hd]; rfl
  rcases hm : w.dlerror fname with _ | msg <;> simp [hd, hm, thrown_append, hev, thrown]

theorem C18_dylib_install_witness :
    NewtDylibInstall dylibWorld "/lib/bad.so".toList =
        (none, [Event.dlopen "/lib/bad.so".toList]) ∧
      NewtDylibInstall dylibWorld "/lib/empty.so".toList =
        (none, [Event.dlopen "/lib/empty.so".toList, Event.dlclose 1]) ∧
      NewtDylibInstall dylibWorld "/lib/good.so".toList =
        (some 2, [Event.dlopen "/lib/good.so".toList, Event.install 2]) :=
  ⟨(C18_dylib_install dylibWorld "/lib/bad.so".toList).1 (by decide),
   (C18_dylib_install dylibWorld "/lib/empty.so".toList).2.1 1 (by decide) (by decide),
   (C18_dylib_install dylibWorld "/lib/good.so".toList).2.2.1 2 (by decide) (by decide)⟩

/-! ## Growth of the registry -/

theorem getSlot_NcSetSlot_ne (frame : Frame) (sym k : List Char) (v : Ref) (h : k ≠ sym) :
    getSlot (NcSetSlot frame sym v) k = getSlot frame k := by
  induction frame with
  | nil => simp [NcSetSlot, getSlot, Ne.symm h]
  | cons slot rest ih =>
    unfold NcSetSlot
    by_cases hs : slot.1 = sym
    · have hk : ¬ slot.1 = k := fun e => h (e ▸ hs)
      simp [hs, getSlot, Ne.symm h, hk]
    · simp only [hs, if_false]
      simp only [getSlot, List.find?_cons] at ih ⊢
      by_cases hk : slot.1 = k
      · simp [hk]
      · simp [hk, ih]

theorem getSlot_of_not_NewtHasSlot (frame : Frame) (sym : List Char)
    (h : NewtHasSlot frame sym = false) : getSlot frame sym = none := by
  induction frame with
  | nil => rfl
  | cons slot rest ih =>
    have h' : (decide (slot.1 = sym) || NewtHasSlot rest sym) = false := h
    have h1 : ¬ slot.1 = sym ∧ NewtHasSlot rest sym = false :=
      ⟨of_decide_eq_false (Bool.or_eq_false_iff.mp h').1, (Bool.or_eq_false_iff.mp h').2⟩
    have h2 := ih h1.2
    simp only [getSlot, List.find?_cons] at h2 ⊢
    simp only [h1.1, decide_False]
    exact h2

/-- C19: under `NcRequire0`, with the evaluator and the library loader not touching the
registry, every key bound before the call is bound to the same value after it, and a
key bound after the call was bound before or is the requested symbol. -/
theorem C19_registry_monotone (w : World) (requires0 : Option Frame) (r : Ref) :
    (∀ k v, getSlot (requires0.getD []) k = some v →
        getSlot ((NcRequire0 w requires0 r).requires.getD []) k = some v) ∧
      (∀ k, getSlot ((NcRequire0 w requires0 r).requires.getD []) k ≠ none →
        getSlot (requires0.getD []) k ≠ none ∨ symbolOf r = some k) := by
  cases hsym : symbolOf r with
  | none =>
    have : (NcRequire0 w requires0 r).requires = requires0 := by simp [NcRequire0, hsym]
    rw [this]
    exact ⟨fun k v h => h, fun k h => Or.inl h⟩
  | some sym =>
    by_cases hreg : NewtHasSlot (requires0.getD []) sym = true
    · rw [NcRequire0_registered w requires0 r sym hsym hreg]
      exact ⟨fun k v h => h, fun k h => Or.inl h⟩
    · have hnew : NewtHasSlot (requires0.getD []) sym = false := by simpa using hreg
      obtain ⟨tr, -, heq⟩ := NcRequire0_new w requires0 r sym hsym hnew
      rw [heq]
      rcases firstExisting w (searchPath w) (printed r) with _ | c
      · exact ⟨fun k v h => h, fun k h => Or.inl h⟩
      · simp only [found_requires, Option.getD_some]
        have hnone := getSlot_of_not_NewtHasSlot _ sym hnew
        constructor
        · intro k v h
          have hk : k ≠ sym := by
            intro e
            rw [e, hnone] at h
            cases h
          rw [getSlot_NcSetSlot_ne _ _ _ _ hk]
          exact h
        · intro k h
          by_cases hk : k = sym
          · right; rw [hk]
          · left
            rwa [getSlot_NcSetSlot_ne _ _ _ _ hk] at h

theorem C19_registry_monotone_witness :
    getSlot ((NcRequire0 demoWorld (some [("bar".toList, Ref.integer 7)])
        (.symbol "foo".toList)).requires.getD []) "bar".toList = some (Ref.integer 7) :=
  (C19_registry_monotone demoWorld (some [("bar".toList, Ref.integer 7)])
    (.symbol "foo".toList)).1 "bar".toList (Ref.integer 7) (by decide)

/-! ## Home directory and path expansion -/

theorem strchr_none (s : List Char) (c : Char) (hN : NUL ∉ s) (h : c ∉ s) :
    strchr s c = none := by
  have : ¬ List.indexOf c s < s.length := by
    rw [List.indexOf_lt_length]; exact h
  simp [strchr, cstr_of_not_mem s hN, this]

theorem strchr_first (name t : List Char) (c : Char) (hN : NUL ∉ name ++ c :: t)
    (h : c ∉ name) : strchr (name ++ c :: t) c = some name.length := by
  have hi : List.indexOf c (name ++ c :: t) = name.length := by
    rw [List.indexOf_append_of_not_mem h, List.indexOf_cons_eq _ rfl]
    rfl
  have hlt : name.length < (name ++ c :: t).length := by simp
  simp [strchr, cstr_of_not_mem _ hN, hi]

theorem load_unterminated (l : List Char) (h : NUL ∉ l) : load l = none := by
  induction l with
  | nil => rfl
  | cons c t ih =>
    simp only [List.mem_cons, not_or] at h
    simp [load, Ne.symm h.1, ih h.2]

/-- The login buffer of `NewtGetHomeDir`: the characters before the separator are copied
into a block of one byte more, and the string read back is the login only if that
last byte happens to be NUL; otherwise the read runs past the block. -/
theorem login_buffer (p : Platform) (name t : List Char) (hN : NUL ∉ name ++ '/' :: t)
    (hm : p.mallocOk (name.length + 1) = true) :
    ((malloc p (name.length + 1)).bind fun login =>
      (strncpy login 0 (name ++ '/' :: t) name.length).bind fun login => load login) =
      if p.uninit (name.length + 1) name.length = NUL then some name else none := by
  have hNn : NUL ∉ name := fun hh => hN (List.mem_append_left _ hh)
  have hb : malloc p (name.length + 1) =
      some ((List.range name.length).map (p.uninit (name.length + 1)) ++
        [p.uninit (name.length + 1) name.length]) := by
    simp [malloc, hm, List.range_succ]
  have hcopy : strncpy ((List.range name.length).map (p.uninit (name.length + 1)) ++
      [p.uninit (name.length + 1) name.length]) 0 (name ++ '/' :: t) name.length =
      some (name ++ [p.uninit (name.length + 1) name.length]) := by
    have hz : name.length - strlen (name ++ '/' :: t) = 0 := by
      rw [strlen_of_not_mem _ hN]; simp
    rw [strncpy, cstr_of_not_mem _ hN, hz, storeAll_eq _ _ _ (by simp)]
    simp
  rw [hb, Option.some_bind, hcopy, Option.some_bind]
  by_cases hz : p.uninit (name.length + 1) name.length = NUL
  · rw [hz, if_pos rfl]
    exact load_cstring name [] hNn
  · rw [if_neg hz]
    exact load_unterminated _ (by simp [hNn, Ne.symm hz])

/-- The account looked up for a login: the named account, or the current user for the
empty login. -/
theorem NewtGetHomeDir_no_sep (p : Platform) (name : List Char) (hN : NUL ∉ name)
    (h : '/' ∉ name) :
    NewtGetHomeDir p ('~' :: name) =
      some (if name = [] then p.getpwuid else p.getpwnam name, none) := by
  have hs := strchr_none name '/' hN h
  simp only [NewtGetHomeDir, NewtGetFileSeparator, List.drop_succ_cons, List.drop_zero,
    cstr_of_not_mem name hN, hs, Option.some_bind, Option.map_none']
  cases name with
  | nil => simp [peek]
  | cons c t =>
    simp only [List.mem_cons, not_or] at hN
    simp [peek, Ne.symm hN.1]

theorem NewtGetHomeDir_sep (p : Platform) (name t : List Char)
    (hN : NUL ∉ name ++ '/' :: t) (h : '/' ∉ name) (hfit : name.length + 1 < 2 ^ 32)
    (hm : p.mallocOk (name.length + 1) = true) :
    NewtGetHomeDir p ('~' :: (name ++ '/' :: t)) =
      if p.uninit (name.length + 1) name.length = NUL then
        some (if name = [] then p.getpwuid else p.getpwnam name, some ('/' :: t))
      else none := by
  have hs := strchr_first name t '/' hN h
  have hNn : NUL ∉ name := fun hh => hN (List.mem_append_left _ hh)
  have e1 : name.length % 2 ^ 32 = name.length := Nat.mod_eq_of_lt (by omega)
  have e2 : (name.length + 1) % 2 ^ 32 = name.length + 1 := Nat.mod_eq_of_lt hfit
  have hl := login_buffer p name t hN hm
  simp only [NewtGetHomeDir, NewtGetFileSeparator, List.drop_succ_cons, List.drop_zero,
    cstr_of_not_mem _ hN, hs, e1, e2, hl]
  by_cases hz : p.uninit (name.length + 1) name.length = NUL
  · simp only [hz, if_true, Option.some_bind, Option.map_some']
    cases name with
    | nil => simp [peek]
    | cons c t' =>
      simp only [List.mem_cons, not_or] at hNn
      simp [peek, Ne.symm hNn.1]
  · simp [hz]

theorem NewtExpandPath_rooted (p : Platform) (s : List Char) (h : peek s 0 = '/') :
    NewtExpandPath p s = some (cstr s) := by
  simp [NewtExpandPath, NewtGetFileSeparator, h]

theorem NewtExpandPath_plain (p : Platform) (s cwd : List Char) (hN : NUL ∉ s)
    (h1 : peek s 0 ≠ '/') (h2 : peek s 0 ≠ '~') (hcwd : p.getcwd = some cwd)
    (hcN : NUL ∉ cwd) (hfit : cwd.length + s.length + 2 < 2 ^ 32)
    (hm : p.mallocOk (cwd.length + s.length + 2) = true) :
    NewtExpandPath p s = some (NewtRelToAbsPath (cwd ++ ['/'] ++ s)) := by
  have hj := NewtJoinPath_eq p cwd s '/' hcN hN (by decide) hfit hm
  simp [NewtExpandPath, NewtGetFileSeparator, h1, h2, hcwd, cstr_of_not_mem s hN, hj]

/-- C11: `NewtExpandPath` returns an input that starts with the separator unchanged, and
for an input that starts with neither the separator nor `~` (the empty string
included) it returns the canonicalization of working directory, separator, input. -/
theorem C11_expand_path (p : Platform) (s cwd : List Char) (hN : NUL ∉ s) :
    (peek s 0 = NewtGetFileSeparator → NewtExpandPath p s = some s) ∧
      (peek s 0 ≠ NewtGetFileSeparator → peek s 0 ≠ '~' →
        p.getcwd = some cwd → NUL ∉ cwd → cwd.length + s.length + 2 < 2 ^ 32 →
        p.mallocOk (cwd.length + s.length + 2) = true →
        NewtExpandPath p s =
          some (NewtRelToAbsPath (cwd ++ [NewtGetFileSeparator] ++ s))) := by
  constructor
  · intro h
    rw [NewtExpandPath_rooted p s h, cstr_of_not_mem s hN]
  · intro h1 h2 hcwd hcN hfit hm
    exact NewtExpandPath_plain p s cwd hN h1 h2 hcwd hcN hfit hm

theorem C11_expand_path_witness :
    NewtExpandPath demoPlatform "/a/./b/".toList = some "/a/./b/".toList ∧
      NewtExpandPath demoPlatform "a/./b".toList =
        some (NewtRelToAbsPath ("/home/u".toList ++ [NewtGetFileSeparator] ++ "a/./b".toList)) ∧
      NewtExpandPath demoPlatform [] =
        some (NewtRelToAbsPath ("/home/u".toList ++ [NewtGetFileSeparator] ++ [])) :=
  ⟨(C11_expand_path demoPlatform "/a/./b/".toList [] (by decide)).1 (by decide),
   (C11_expand_path demoPlatform "a/./b".toList "/home/u".toList (by decide)).2
     (by decide) (by decide) rfl (by decide) (by decide) rfl,
   (C11_expand_path demoPlatform [] "/home/u".toList (by decide)).2
     (by decide) (by decide) rfl (by decide) (by decide) rfl⟩

/-- Expansion of `~login` without a separator: the home directory found, or the working
directory when none is found. -/
theorem NewtExpandPath_tilde_no_sep (p : Platform) (name : List Char) (hN : NUL ∉ name)
    (h : '/' ∉ name) :
    NewtExpandPath p ('~' :: name) =
      ((if name = [] then p.getpwuid else p.getpwnam name).or p.getcwd) := by
  have hg := NewtGetHomeDir_no_sep p name hN h
  simp only [NewtExpandPath, NewtGetFileSeparator, peek, List.getD_cons_zero, hg]
  rcases (if name = [] then p.getpwuid else p.getpwnam name) with _ | d
  · rcases p.getcwd with _ | c <;> simp
  · simp

/-- Expansion of `~login/rest` when the byte after the copied login reads as NUL: the
home directory found, or else the working directory, joined with a rest that is not
empty and canonicalized. -/
theorem NewtExpandPath_tilde_sep (p : Platform) (name t : List Char)
    (hN : NUL ∉ name ++ '/' :: t) (h : '/' ∉ name) (hfit : name.length + 1 < 2 ^ 32)
    (hm : p.mallocOk (name.length + 1) = true)
    (hz : p.uninit (name.length + 1) name.length = NUL) :
    NewtExpandPath p ('~' :: (name ++ '/' :: t)) =
      ((if name = [] then p.getpwuid else p.getpwnam name).or p.getcwd).bind fun dir =>
        if t = [] then some dir else (NewtJoinPath p dir t '/').map NewtRelToAbsPath := by
  have hg := NewtGetHomeDir_sep p name t hN h hfit hm
  rw [if_pos hz] at hg
  simp only [NewtExpandPath, NewtGetFileSeparator, peek, List.getD_cons_zero, hg]
  have hNt : NUL ∉ t := fun hh => hN (List.mem_append_right _ (List.mem_cons_of_mem _ hh))
  rcases (if name = [] then p.getpwuid else p.getpwnam name) with _ | d
  · rcases p.getcwd with _ | c
    · cases t with
      | nil => simp
      | cons x t' =>
        simp only [List.mem_cons, not_or] at hNt
        simp [Ne.symm hNt.1]
    · cases t with
      | nil => simp
      | cons x t' =>
        simp only [List.mem_cons, not_or] at hNt
        simp [Ne.symm hNt.1]
  · cases t with
    | nil => simp
    | cons x t' =>
      simp only [List.mem_cons, not_or] at hNt
      simp [Ne.symm hNt.1]

/-- What `NewtExpandPath` does for a login without an account when the byte after the
copied login reads as NUL: `~name` and `~name/` give the working directory, `~name/rest`
gives the canonicalization of working directory, separator, rest; and `~` alone gives
the home directory of the current user. -/
theorem NewtExpandPath_unknown_login (p : Platform) (name t cwd home : List Char)
    (hN : NUL ∉ name ++ '/' :: t) (hname : name ≠ []) (h : '/' ∉ name)
    (hno : p.getpwnam name = none) (hcwd : p.getcwd = some cwd) (hcN : NUL ∉ cwd)
    (hfit : cwd.length + (name.length + t.length) + 2 < 2 ^ 32)
    (hm : ∀ n, p.mallocOk n = true)
    (hz : p.uninit (name.length + 1) name.length = NUL)
    (hme : p.getpwuid = some home) :
    NewtGetHomeDir p ('~' :: name) = some (none, none) ∧
      NewtGetHomeDir p ('~' :: (name ++ '/' :: t)) = some (none, some ('/' :: t)) ∧
      NewtExpandPath p ('~' :: name) = some cwd ∧
      NewtExpandPath p ('~' :: (name ++ '/' :: t)) =
        (if t = [] then some cwd else some (NewtRelToAbsPath (cwd ++ ['/'] ++ t))) ∧
      NewtExpandPath p ['~'] = some home := by
  have hNn : NUL ∉ name := fun hh => hN (List.mem_append_left _ hh)
  have hNt : NUL ∉ t := fun hh => hN (List.mem_append_right _ (List.mem_cons_of_mem _ hh))
  refine ⟨?_, ?_, ?_, ?_, ?_⟩
  · rw [NewtGetHomeDir_no_sep p name hNn h, if_neg hname, hno]
  · rw [NewtGetHomeDir_sep p name t hN h (by omega) (hm _), if_pos hz, if_neg hname, hno]
  · rw [NewtExpandPath_tilde_no_sep p name hNn h, if_neg hname, hno, hcwd]
    rfl
  · rw [NewtExpandPath_tilde_sep p name t hN h (by omega) (hm _) hz, if_neg hname, hno, hcwd]
    by_cases ht : t = []
    · simp [ht]
    · have hj := NewtJoinPath_eq p cwd t '/' hcN hNt (by decide) (by omega) (hm _)
      simp [ht, hj]
  · have := NewtExpandPath_tilde_no_sep p [] (by simp) (by simp)
    rw [this, if_pos rfl, hme]
    rfl

/-- C13, the code at the failing input: the login `bob` has no account; on a heap whose
fresh blocks do not hold zero bytes the login copied from `~bob/x` has no terminator,
the lookup reads past the block, and neither `NewtGetHomeDir` nor `NewtExpandPath` has a
defined result; on a heap of zero bytes the same input gives `/home/u/x`. -/
theorem C13_unterminated_login :
    dirtyPlatform.getpwnam "bob".toList = none ∧
      NewtGetHomeDir dirtyPlatform "~bob/x".toList = none ∧
      NewtExpandPath dirtyPlatform "~bob/x".toList = none ∧
      NewtExpandPath dirtyPlatform "~bob/".toList = none ∧
      NewtGetHomeDir demoPlatform "~bob/x".toList = some (none, some "/x".toList) ∧
      NewtExpandPath demoPlatform "~bob/x".toList = some "/home/u/x".toList := by
  decide

theorem NewtRelToAbsPath_noDots (s : List Char) : NoDots (NewtRelToAbsPath s) := by
  have he : NewtRelToAbsPath s = terminate '/' (scan '/' s.length s []) := rfl
  obtain ⟨d', hsuf, hterm⟩ := terminate_spec (scan '/' s.length s [])
  obtain ⟨n1, n2⟩ := scan_noDotSegment s s.length
  have r1 : ['/', '.', '/'] = (['/', '.', '/'] : List Char).reverse := rfl
  have r2 : ['/', '.', '.', '/'] = (['/', '.', '.', '/'] : List Char).reverse := rfl
  rw [he, hterm]
  constructor
  · rw [r1, List.reverse_infix]
    exact fun hi => n1 (hi.trans hsuf.isInfix)
  · rw [r2, List.reverse_infix]
    exact fun hi => n2 (hi.trans hsuf.isInfix)

/-- C12 counterexample: with a canonical working directory and canonical home
directories, an input that starts with the separator is returned as it is, dot
segment and trailing separator included; a trailing `..` is not resolved; a trailing
separator survives after a doubled one; and the result can be empty, so not
absolute. -/
theorem C12_counterexample :
    demoPlatform.getcwd = some "/home/u".toList ∧
      NewtExpandPath demoPlatform "/a/./b/".toList = some "/a/./b/".toList ∧
      NewtExpandPath demoPlatform "..".toList = some "/home/u/..".toList ∧
      NewtExpandPath demoPlatform "a//".toList = some "/home/u/a/".toList ∧
      NewtExpandPath demoPlatform "../../../".toList = some [] := by
  decide

/-- C12 (amended): for every input path that does not start with the separator, when the
working directory and every home directory are C strings without `/./` and `/../`
segments, sizes fit, allocations succeed and the byte after a copied login reads as
NUL, `NewtExpandPath` returns a path without `/./` and without `/../` segments. -/
theorem C12_expand_no_dot_segment (p : Platform) (s : List Char) (hN : NUL ∉ s)
    (hroot : peek s 0 ≠ NewtGetFileSeparator)
    (hcwd : p.getcwd ≠ none)
    (hdirs : ∀ d, (p.getcwd = some d ∨ p.getpwuid = some d ∨
        ∃ login, p.getpwnam login = some d) →
      NUL ∉ d ∧ NoDots d ∧ d.length + s.length + 2 < 2 ^ 32)
    (hm : ∀ n, p.mallocOk n = true) (hterm : ∀ n, p.uninit (n + 1) n = NUL) :
    ∃ r, NewtExpandPath p s = some r ∧ NoDots r := by
  obtain ⟨cwd, hc⟩ := Option.ne_none_iff_exists'.mp hcwd
  have hroot' : peek s 0 ≠ '/' := hroot
  by_cases htilde : peek s 0 = '~'
  · -- the input is `~` followed by u
    obtain ⟨u, hu⟩ : ∃ u, s = '~' :: u := by
      cases s with
      | nil => exact absurd htilde (by decide)
      | cons c u => exact ⟨u, by simp [peek] at htilde; rw [htilde]⟩
    subst hu
    have hNu : NUL ∉ u := fun hh => hN (List.mem_cons_of_mem _ hh)
    -- the directory the expansion starts from
    have hdir : ∀ name : List Char, ∃ d,
        ((if name = [] then p.getpwuid else p.getpwnam name).or p.getcwd) = some d ∧
        NUL ∉ d ∧ NoDots d ∧ d.length + ('~' :: u).length + 2 < 2 ^ 32 := by
      intro name
      rcases hh : (if name = [] then p.getpwuid else p.getpwnam name) with _ | d
      · exact ⟨cwd, by simp [hc], hdirs cwd (Or.inl hc)⟩
      · refine ⟨d, by simp, hdirs d ?_⟩
        by_cases hn : name = []
        · rw [if_pos hn] at hh
          exact Or.inr (Or.inl hh)
        · rw [if_neg hn] at hh
          exact Or.inr (Or.inr ⟨name, hh⟩)
    by_cases hs : '/' ∈ u
    · obtain ⟨name, t, hsplit, hname⟩ := List.eq_append_cons_of_mem hs
      subst hsplit
      have hNt : NUL ∉ t :=
        fun hh => hNu (List.mem_append_right _ (List.mem_cons_of_mem _ hh))
      have hlen : (name ++ '/' :: t).length = name.length + t.length + 1 := by
        simp; omega
      obtain ⟨d, hd, hdN, hdD, hdfit⟩ := hdir name
      simp only [List.length_cons, hlen] at hdfit
      rw [NewtExpandPath_tilde_sep p name t hNu hname (by omega) (hm _) (hterm _), hd,
        Option.some_bind]
      by_cases ht : t = []
      · exact ⟨d, by simp [ht], hdD⟩
      · have hj := NewtJoinPath_eq p d t '/' hdN hNt (by decide) (by omega) (hm _)
        exact ⟨NewtRelToAbsPath (d ++ ['/'] ++ t), by simp [ht, hj],
          NewtRelToAbsPath_noDots _⟩
    · obtain ⟨d, hd, -, hdD, -⟩ := hdir u
      rw [NewtExpandPath_tilde_no_sep p u hNu hs, hd]
      exact ⟨d, rfl, hdD⟩
  · obtain ⟨hcN, -, hfit⟩ := hdirs cwd (Or.inl hc)
    exact ⟨_, NewtExpandPath_plain p s cwd hN hroot' htilde hc hcN hfit (hm _),
      NewtRelToAbsPath_noDots _⟩

theorem C12_expand_no_dot_segment_witness :
    ∃ r, NewtExpandPath demoPlatform "~alice/x/../y".toList = some r ∧ NoDots r :=
  C12_expand_no_dot_segment demoPlatform "~alice/x/../y".toList (by decide) (by decide)
    (by decide)
    (by
      intro d hd
      have hcases : d = "/home/u".toList ∨ d = "/home/alice".toList := by
        rcases hd with h | h | ⟨login, h⟩
        · left; exact (Option.some.inj h).symm
        · left; exact (Option.some.inj h).symm
        · right
          by_cases hl : login = "alice".toList
          · simp only [demoPlatform, hl, if_true] at h
            exact (Option.some.inj h).symm
          · simp only [demoPlatform, hl, if_false] at h
            cases h
      rcases hcases with e | e <;> subst e <;> decide)
    (fun _ => rfl) (fun _ => rfl)

/-! ## The cursors of the canonicalizer -/

/-- The rewind never takes a cursor that is at or after the start of the buffer before
it, and never moves it forward. -/
theorem rewindCursor_bounds (sep : Char) (buf : List Char) :
    ∀ (fuel : Nat) (dst : Int), 0 ≤ dst →
      0 ≤ rewindCursor sep buf fuel dst ∧ rewindCursor sep buf fuel dst ≤ dst := by
  intro fuel
  induction fuel with
  | zero => intro dst h; exact ⟨h, Int.le_refl _⟩
  | succ n ih =>
    intro dst h
    unfold rewindCursor
    by_cases hpos : 0 < dst
    · simp only [hpos, if_true]
      by_cases hb : byteAt buf (dst - 1) = sep
      · simp only [hb, if_true]
        omega
      · simp only [hb, if_false]
        have := ih (dst - 1) (by omega)
        omega
    · simp only [hpos, if_false]
      exact ⟨h, Int.le_refl _⟩

theorem rewindCursor_at_start (sep : Char) (buf : List Char) (fuel : Nat) :
    rewindCursor sep buf fuel 0 = 0 := by
  cases fuel <;> simp [rewindCursor]

theorem stepCursors_dst_nonneg (sep : Char) (st st' : Cursors) (h : 0 ≤ st.dst)
    (hs : stepCursors sep st = some st') : 0 ≤ st'.dst := by
  unfold stepCursors at hs
  simp only at hs
  split at hs
  · cases hs
  · split at hs
    · split at hs
      · cases hs; exact h
      · split at hs
        · cases hs
          exact (rewindCursor_bounds sep st.buf _ st.dst h).1
        · cases hs
          show 0 ≤ st.dst + 1
          omega
    · cases hs
      show 0 ≤ st.dst + 1
      omega

theorem scanCursors_dst_nonneg (sep : Char) :
    ∀ (fuel : Nat) (st : Cursors), 0 ≤ st.dst → 0 ≤ (scanCursors sep fuel st).dst := by
  intro fuel
  induction fuel with
  | zero => intro st h; exact h
  | succ n ih =>
    intro st h
    unfold scanCursors
    rcases hs : stepCursors sep st with _ | st'
    · exact h
    · exact ih st' (stepCursors_dst_nonneg sep st st' h hs)

/-- C20 counterexample: on `/../a`, and on `/a/../../b` at its second `/../`, there is no
component to delete, and the destination cursor stays at the start of the buffer
(offset 0) after the rewind; after no number of iterations is it before the start. -/
theorem C20_counterexample :
    stepCursors '/' ⟨"/../a".toList, 0, 0⟩ = some ⟨"/../a".toList, 3, 0⟩ ∧
      (∀ n ∈ List.range 8, 0 ≤ (scanCursors '/' n ⟨"/../a".toList, 0, 0⟩).dst) ∧
      (scanCursors '/' 3 ⟨"/a/../../b".toList, 0, 0⟩).dst = 0 ∧
      (scanCursors '/' 4 ⟨"/a/../../b".toList, 0, 0⟩).dst = 0 ∧
      (∀ n ∈ List.range 12, 0 ≤ (scanCursors '/' n ⟨"/a/../../b".toList, 0, 0⟩).dst) ∧
      NewtRelToAbsPathCursors "/../a".toList = "/a".toList ∧
      NewtRelToAbsPathCursors "/a/../../b".toList = "/b".toList := by
  decide

/-! ## The cursors and the stack agree -/

theorem lt_of_peek_ne (l : List Char) (k : Nat) (h : peek l k ≠ NUL) : k < l.length := by
  by_contra hk
  apply h
  simp [peek, List.getD_eq_getElem?_getD, List.getElem?_eq_none (Nat.le_of_not_lt hk)]

theorem take_succ_peek (l : List Char) (d : Nat) (h : d < l.length) :
    l.take (d + 1) = l.take d ++ [peek l d] := by
  rw [List.take_succ, peek_of_lt l d h, List.getElem?_eq_getElem h]
  rfl

theorem byteAt_natCast (buf : List Char) (d : Nat) : byteAt buf (d : Int) = peek buf d := by
  simp [byteAt]

theorem writeAt_natCast (buf : List Char) (d : Nat) (c : Char) :
    writeAt buf (d : Int) c = buf.set d c := by
  simp [writeAt]

/-- The rewind on the cursor is the rewind on the stack of what is written. -/
theorem rewindCursor_eq (sep : Char) (buf : List Char) :
    ∀ (d : Nat), d ≤ buf.length → ∀ fuel, d ≤ fuel →
      ∃ d' : Nat, rewindCursor sep buf fuel (d : Int) = (d' : Int) ∧ d' ≤ d ∧
        (buf.take d').reverse = rewind sep (buf.take d).reverse := by
  intro d
  induction d with
  | zero =>
    intro _ fuel _
    exact ⟨0, by simpa using rewindCursor_at_start sep buf fuel, Nat.le_refl _, by simp [rewind]⟩
  | succ d ih =>
    intro hd fuel hf
    obtain ⟨f, rfl⟩ : ∃ f, fuel = f + 1 := ⟨fuel - 1, by omega⟩
    have hlt : d < buf.length := by omega
    have hcast : ((d + 1 : Nat) : Int) - 1 = (d : Int) := by push_cast; omega
    have hpos : (0 : Int) < ((d + 1 : Nat) : Int) := by push_cast; omega
    rw [rewindCursor, if_pos hpos, hcast, byteAt_natCast, take_succ_peek buf d hlt]
    simp only [List.reverse_append, List.reverse_cons, List.reverse_nil, List.nil_append,
      List.singleton_append, rewind]
    by_cases hb : peek buf d = sep
    · rw [if_pos hb, if_pos hb]
      exact ⟨d, rfl, by omega, rfl⟩
    · rw [if_neg hb, if_neg hb]
      obtain ⟨d', h1, h2, h3⟩ := ih (by omega) f (by omega)
      exact ⟨d', h1, by omega, h3⟩

theorem not_mem_rewind (dst : List Char) (h : NUL ∉ dst) : NUL ∉ rewind '/' dst :=
  fun hm => h ((rewind_suffix dst).subset hm)

/-- The loop on the cursors and the loop on the stack go through the same iterations: the
written part of the buffer, read backwards, is the stack. -/
theorem scanCursors_eq : ∀ (fuel : Nat) (buf : List Char) (src d : Nat) (dstL : List Char),
    d ≤ src → src ≤ buf.length → (buf.take d).reverse = dstL → NUL ∉ dstL →
    (buf.drop src).length ≤ fuel →
    ∃ (bufF : List Char) (srcF dF : Nat),
      scanCursors '/' fuel ⟨buf, src, (d : Int)⟩ = ⟨bufF, srcF, (dF : Int)⟩ ∧
      dF ≤ srcF ∧ srcF ≤ bufF.length ∧
      (bufF.take dF).reverse = scan '/' fuel (buf.drop src) dstL ∧
      NUL ∉ scan '/' fuel (buf.drop src) dstL ∧ peek bufF srcF = NUL := by
  intro fuel
  induction fuel with
  | zero =>
    intro buf src d dstL hd hs hst hN hf
    have hnil : buf.drop src = [] := List.length_eq_zero.mp (Nat.le_zero.mp hf)
    refine ⟨buf, src, d, rfl, hd, hs, by simpa [scan] using hst, by simpa [scan] using hN, ?_⟩
    have := peek_drop buf src 0
    rw [hnil] at this
    simpa [peek] using this.symm
  | succ n ih =>
    intro buf src d dstL hd hs hst hN hf
    have hp : ∀ k, peek (buf.drop src) k = peek buf (src + k) := peek_drop buf src
    rw [scanCursors, stepCursors, scan]
    simp only [Int.toNat_ofNat]
    by_cases h0 : peek (buf.drop src) 0 = NUL
    · simp only [h0, if_true]
      exact ⟨buf, src, d, rfl, hd, hs, hst, hN, by simpa [hp] using h0⟩
    · have hlt0 : 0 < (buf.drop src).length := lt_of_peek_ne _ 0 h0
      have hsrc : src < buf.length := by
        rw [List.length_drop] at hlt0; omega
      -- the iteration that copies
      have hcopy : ∃ (bufF : List Char) (srcF dF : Nat),
          scanCursors '/' n ⟨if (src : Int) ≠ (d : Int) then
              writeAt buf (d : Int) (peek (buf.drop src) 0) else buf, src + 1, (d : Int) + 1⟩
            = ⟨bufF, srcF, (dF : Int)⟩ ∧
          dF ≤ srcF ∧ srcF ≤ bufF.length ∧
          (bufF.take dF).reverse =
            scan '/' n ((buf.drop src).drop 1) (peek (buf.drop src) 0 :: dstL) ∧
          NUL ∉ scan '/' n ((buf.drop src).drop 1) (peek (buf.drop src) 0 :: dstL) ∧
          peek bufF srcF = NUL := by
        have hdlt : d < buf.length := by omega
        let buf' := if (src : Int) ≠ (d : Int) then
          writeAt buf (d : Int) (peek (buf.drop src) 0) else buf
        have hlen : buf'.length = buf.length := by
          simp only [buf']
          split
          · rw [writeAt_natCast, List.length_set]
          · rfl
        have htake : buf'.take (d + 1) = buf.take d ++ [peek (buf.drop src) 0] := by
          simp only [buf']
          by_cases he : (src : Int) ≠ (d : Int)
          · rw [if_pos he, writeAt_natCast, List.set_eq_take_append_cons_drop, if_pos hdlt,
              List.take_append_eq_append_take]
            have hl : (buf.take d).length = d := by rw [List.length_take]; omega
            simp [hl]
          · have hsd : src = d := by
              have := not_not.mp he
              exact_mod_cast this
            rw [if_neg he, take_succ_peek buf d hdlt, hp 0, hsd]
            rfl
        have hdrop : buf'.drop (src + 1) = (buf.drop src).drop 1 := by
          simp only [buf']
          rw [List.drop_drop]
          split
          · rw [writeAt_natCast, List.drop_set_of_lt _ _ (by omega)]
          · rfl
        have hcast : ((d : Int) + 1) = ((d + 1 : Nat) : Int) := by push_cast; rfl
        have hN' : NUL ∉ peek (buf.drop src) 0 :: dstL := by
          simp only [List.mem_cons, not_or]
          exact ⟨Ne.symm h0, hN⟩
        have := ih buf' (src + 1) (d + 1) (peek (buf.drop src) 0 :: dstL) (by omega)
          (by rw [hlen]; omega) (by rw [htake, ← hst]; simp) hN'
          (by rw [hdrop]; simp only [List.length_drop] at hf ⊢; omega)
        rw [hdrop] at this
        rw [hcast]
        exact this
      simp only [h0, if_false]
      by_cases hsd : peek (buf.drop src) 0 = '/' ∧ peek (buf.drop src) 1 = '.'
      · simp only [hsd, and_self, if_true]
        have hlt1 : 1 < (buf.drop src).length :=
          lt_of_peek_ne _ 1 (by rw [hsd.2]; decide)
        by_cases h2 : peek (buf.drop src) 2 = '/' ∨ peek (buf.drop src) 2 = NUL
        · -- the `/.` segment is skipped
          simp only [h2, if_true]
          have := ih buf (src + 2) d dstL (by omega)
            (by rw [List.length_drop] at hlt1; omega) hst hN
            (by simp only [List.length_drop] at hf ⊢; omega)
          rw [← List.drop_drop] at this
          exact this
        · simp only [h2, if_false]
          by_cases h3 : peek (buf.drop src) 2 = '.' ∧ peek (buf.drop src) 3 = '/'
          · -- the `/..` segment: rewind
            simp only [h3, and_self, if_true]
            have hlt2 : 2 < (buf.drop src).length :=
              lt_of_peek_ne _ 2 (by rw [h3.1]; decide)
            obtain ⟨d', hr1, hr2, hr3⟩ :=
              rewindCursor_eq '/' buf d (by omega) d (Nat.le_refl _)
            rw [hr1]
            have := ih buf (src + 3) d' (rewind '/' dstL) (by omega)
              (by rw [List.length_drop] at hlt2; omega) (by rw [hr3, hst])
              (not_mem_rewind dstL hN)
              (by simp only [List.length_drop] at hf ⊢; omega)
            rw [← List.drop_drop] at this
            exact this
          · simp only [h3, if_false]
            have hc := hcopy
            rw [hsd.1] at hc
            exact hc
      · simp only [hsd, if_false]
        exact hcopy

theorem cstr_append_NUL (a rest : List Char) (h : NUL ∉ a) : cstr (a ++ NUL :: rest) = a := by
  induction a with
  | nil => simp [cstr]
  | cons c t ih =>
    simp only [List.mem_cons, not_or] at h
    have hc : c ≠ NUL := Ne.symm h.1
    simpa [cstr, List.takeWhile_cons, hc] using ih h.2

theorem cstr_set (b : List Char) (d : Nat) (hd : d < b.length) (hN : NUL ∉ b.take d) :
    cstr (b.set d NUL) = b.take d := by
  rw [List.set_eq_take_append_cons_drop, if_pos hd]
  exact cstr_append_NUL _ _ hN

theorem cstr_of_take (b : List Char) (d : Nat) (hd : d ≤ b.length) (hN : NUL ∉ b.take d)
    (hp : peek b d = NUL) : cstr b = b.take d := by
  by_cases hlt : d < b.length
  · have hdrop : b.drop d = NUL :: b.drop (d + 1) := by
      rw [List.drop_eq_getElem_cons hlt, ← peek_of_lt b d hlt, hp]
    have hb : b = b.take d ++ NUL :: b.drop (d + 1) := by
      rw [← hdrop, List.take_append_drop]
    calc cstr b = cstr (b.take d ++ NUL :: b.drop (d + 1)) := by rw [← hb]
      _ = b.take d := cstr_append_NUL _ _ hN
  · have hall : b.take d = b := List.take_of_length_le (by omega)
    rw [hall] at hN ⊢
    exact cstr_of_not_mem b hN

/-- The canonicalizer on the buffer with its two cursors returns the same string as the
canonicalizer on the stack of written characters, for every input. -/
theorem NewtRelToAbsPathCursors_eq (s : List Char) :
    NewtRelToAbsPathCursors s = NewtRelToAbsPath s := by
  obtain ⟨bufF, srcF, dF, hscan, hle, hsrc, hstack, hN, hend⟩ :=
    scanCursors_eq s.length s 0 0 [] (Nat.le_refl _) (Nat.zero_le _) rfl (by simp) (by simp)
  have he : NewtRelToAbsPath s = terminate '/' (scan '/' s.length s []) := rfl
  simp only [List.drop_zero] at hstack hN
  have hscan' : scanCursors '/' s.length ⟨s, 0, 0⟩ = ⟨bufF, srcF, (dF : Int)⟩ := hscan
  rw [he, ← hstack]
  rw [← hstack] at hN
  have hNt : NUL ∉ bufF.take dF := fun hm => hN (List.mem_reverse.mpr hm)
  simp only [NewtRelToAbsPathCursors, NewtGetFileSeparator, hscan']
  cases dF with
  | zero =>
    simp only [List.take_zero, List.reverse_nil, terminate]
    have h1 : ¬ ((0 : Int) < ((0 : Nat) : Int) ∧ byteAt bufF (((0 : Nat) : Int) - 1) = '/') := by
      simp
    rw [if_neg h1]
    by_cases hs0 : (srcF : Int) ≠ ((0 : Nat) : Int)
    · rw [if_pos hs0, writeAt_natCast]
      have hpos : 0 < bufF.length := by
        have : srcF ≠ 0 := fun e => hs0 (by rw [e])
        omega
      simpa using cstr_set bufF 0 hpos (by simp)
    · rw [if_neg hs0]
      have hz : srcF = 0 := by
        have := not_not.mp hs0
        exact_mod_cast this
      rw [hz] at hend
      simpa using cstr_of_take bufF 0 (Nat.zero_le _) (by simp) hend
  | succ k =>
    have hklt : k < bufF.length := by omega
    have hcast : (((k + 1 : Nat) : Int) - 1) = (k : Int) := by push_cast; omega
    have hpos : (0 : Int) < ((k + 1 : Nat) : Int) := by push_cast; omega
    have hNk : NUL ∉ bufF.take k := by
      intro hm
      apply hNt
      rw [take_succ_peek bufF k hklt]
      exact List.mem_append_left _ hm
    rw [hcast, byteAt_natCast, take_succ_peek bufF k hklt]
    simp only [List.reverse_append, List.reverse_cons, List.reverse_nil, List.nil_append,
      List.singleton_append, terminate, hpos, true_and]
    by_cases hc : peek bufF k = '/'
    · rw [if_pos hc, if_pos hc, writeAt_natCast, cstr_set bufF k hklt hNk]
      simp
    · rw [if_neg hc, if_neg hc]
      have hrev : (bufF.take k).reverse.reverse ++ [peek bufF k] = bufF.take (k + 1) := by
        rw [take_succ_peek bufF k hklt]; simp
      rw [hrev]
      by_cases hs0 : (srcF : Int) ≠ ((k + 1 : Nat) : Int)
      · rw [if_pos hs0, writeAt_natCast]
        have hlt : k + 1 < bufF.length := by
          have : srcF ≠ k + 1 := fun e => hs0 (by rw [e])
          omega
        exact cstr_set bufF (k + 1) hlt hNt
      · rw [if_neg hs0]
        have hz : srcF = k + 1 := by
          have := not_not.mp hs0
          exact_mod_cast this
        rw [hz] at hend
        exact cstr_of_take bufF (k + 1) (by omega) hNt hend

/-! ## A dot-dot segment with nothing before it -/

/-- On the cursors: at a `/../` segment with the destination cursor at the start of the
buffer, one iteration moves the source cursor past `/..`, leaves the destination
cursor at the start and writes nothing. -/
theorem stepCursors_dotdot_at_start (pre rest : List Char) :
    stepCursors '/' ⟨pre ++ '/' :: '.' :: '.' :: '/' :: rest, pre.length, 0⟩ =
      some ⟨pre ++ '/' :: '.' :: '.' :: '/' :: rest, pre.length + 3, 0⟩ := by
  have h1 : ('/' : Char) ≠ NUL := by decide
  have h2 : ('.' : Char) ≠ '/' := by decide
  have h3 : ('.' : Char) ≠ NUL := by decide
  simp [stepCursors, peek, h1, h2, h3, rewindCursor]

/-- On the stack: a leading `/../` is dropped. -/
theorem NewtRelToAbsPath_leading_dotdot (rest : List Char) :
    NewtRelToAbsPath ('/' :: '.' :: '.' :: '/' :: rest) = NewtRelToAbsPath ('/' :: rest) := by
  rw [NewtRelToAbsPath_eq, NewtRelToAbsPath_eq, run_rewind]
  rfl

/-- On the stack: a second `/../` after the only component was deleted is dropped with
it. -/
theorem NewtRelToAbsPath_second_dotdot (a rest : List Char) (ha : IsComponent a) :
    NewtRelToAbsPath ('/' :: a ++ ['/', '.', '.', '/', '.', '.', '/'] ++ rest) =
      NewtRelToAbsPath ('/' :: rest) := by
  have has : ∀ x ∈ a.reverse, x ≠ '/' := fun x hx => (ha.2 x (List.mem_reverse.mp hx)).1
  have e1 : '/' :: a ++ ['/', '.', '.', '/', '.', '.', '/'] ++ rest =
      '/' :: a ++ ('/' :: '.' :: '.' :: '/' :: '.' :: '.' :: '/' :: rest) := by simp
  rw [NewtRelToAbsPath_eq, NewtRelToAbsPath_eq, e1, run_sep_component a ha, run_rewind,
    rewind_append _ has, run_rewind]
  rfl

/-- C20 (amended): when the canonicalizer meets a `/../` segment with no preceding
component to delete (at the start of the input, or as a second `/../` after the only
component was deleted), the rewind is guarded by the test `s < dst`: the destination
cursor stays at the start of the buffer, nothing is written, the source cursor moves
past `/..`, and so the segment is dropped from the result; after any number of
iterations, on any input, the cursor is at or after the start of the buffer. -/
theorem C20_cursor_never_underflows (s buf pre rest a : List Char) (n fuel : Nat)
    (dst : Int) (ha : IsComponent a) :
    rewindCursor NewtGetFileSeparator buf fuel 0 = 0 ∧
      (0 ≤ dst → 0 ≤ rewindCursor NewtGetFileSeparator buf fuel dst) ∧
      0 ≤ (scanCursors NewtGetFileSeparator n ⟨s, 0, 0⟩).dst ∧
      stepCursors NewtGetFileSeparator
          ⟨pre ++ '/' :: '.' :: '.' :: '/' :: rest, pre.length, 0⟩ =
        some ⟨pre ++ '/' :: '.' :: '.' :: '/' :: rest, pre.length + 3, 0⟩ ∧
      NewtRelToAbsPathCursors ('/' :: '.' :: '.' :: '/' :: rest) =
        NewtRelToAbsPathCursors ('/' :: rest) ∧
      NewtRelToAbsPathCursors ('/' :: a ++ ['/', '.', '.', '/', '.', '.', '/'] ++ rest) =
        NewtRelToAbsPathCursors ('/' :: rest) ∧
      NewtRelToAbsPath ('/' :: '.' :: '.' :: '/' :: rest) = NewtRelToAbsPath ('/' :: rest) ∧
      NewtRelToAbsPath ('/' :: a ++ ['/', '.', '.', '/', '.', '.', '/'] ++ rest) =
        NewtRelToAbsPath ('/' :: rest) := by
  refine ⟨rewindCursor_at_start _ buf fuel,
    fun h => (rewindCursor_bounds _ buf fuel dst h).1,
    scanCursors_dst_nonneg _ n ⟨s, 0, 0⟩ (Int.le_refl 0),
    stepCursors_dotdot_at_start pre rest, ?_, ?_,
    NewtRelToAbsPath_leading_dotdot rest, NewtRelToAbsPath_second_dotdot a rest ha⟩
  · rw [NewtRelToAbsPathCursors_eq, NewtRelToAbsPathCursors_eq]
    exact NewtRelToAbsPath_leading_dotdot rest
  · rw [NewtRelToAbsPathCursors_eq, NewtRelToAbsPathCursors_eq]
    exact NewtRelToAbsPath_second_dotdot a rest ha

theorem C20_cursor_never_underflows_witness :
    rewindCursor NewtGetFileSeparator "/../a".toList 5 0 = 0 ∧
      0 ≤ (scanCursors NewtGetFileSeparator 1 ⟨"/../a".toList, 0, 0⟩).dst ∧
      stepCursors NewtGetFileSeparator ⟨"/../a".toList, 0, 0⟩ =
        some ⟨"/../a".toList, 3, 0⟩ ∧
      NewtRelToAbsPathCursors "/../a".toList = NewtRelToAbsPathCursors "/a".toList ∧
      NewtRelToAbsPathCursors "/a/../../b".toList = NewtRelToAbsPathCursors "/b".toList :=
  have h := C20_cursor_never_underflows "/../a".toList "/../a".toList [] "a".toList
    "a".toList 1 5 0 (by decide)
  have h2 := C20_cursor_never_underflows [] [] [] "b".toList "a".toList 0 0 0 (by decide)
  ⟨h.1, h.2.2.1, h.2.2.2.1, h.2.2.2.2.1, h2.2.2.2.2.2.1⟩

end Newt
